import Mathlib

/-!
Verification of the web-rest-cpp repository's BigDecimal, JSON and HTTP
router components against their natural-language specification.

Strings are modelled as `List Char`, the C++ `std::vector<int>` digit
store as `List Nat`, and `std::unordered_map` by association lists with
the map's observable lookup/insert semantics.  Machine integers stay in
`Nat`/`Int`; every place where the C++ `int` values are provably
non-negative is modelled with `Nat` and noted next to the definition.
-/

namespace WebCpp

instance {ε α : Type} [DecidableEq ε] [DecidableEq α] : DecidableEq (Except ε α) := fun a b =>
  match a, b with
  | .ok x, .ok y =>
    if h : x = y then .isTrue (by rw [h]) else .isFalse (by intro hc; cases hc; exact h rfl)
  | .error e, .error f =>
    if h : e = f then .isTrue (by rw [h]) else .isFalse (by intro hc; cases hc; exact h rfl)
  | .ok _, .error _ => .isFalse (by intro h; cases h)
  | .error _, .ok _ => .isFalse (by intro h; cases h)

/-- The BigDecimal value type, mirroring `BigDecimal`'s private fields in
`bigdec/bigdec.hpp`: `digits` (most-significant first), `negative`, and
`scale` (a C++ `int` that is non-negative in every constructed value, so
modelled as `Nat`). -/
structure BigDec where
  digits : List Nat
  negative : Bool
  scale : Nat
  deriving Repr, DecidableEq

/-- Value of a most-significant-first digit vector, as in the spec's
`Σ digit[i]·10^(len−1−i)`. -/
def natOfDigits (l : List Nat) : Nat :=
  l.foldl (fun acc d => 10 * acc + d) 0

/-- Value of a least-significant-first digit vector (used to reason about
the right-to-left carry loops). -/
def valL (l : List Nat) : Nat :=
  l.foldr (fun d acc => d + 10 * acc) 0

/-- The rational number a `BigDec` denotes:
`±(Σ digit[i]·10^(len−1−i)) · 10^(−scale)` (spec §3). -/
def valQ (x : BigDec) : ℚ :=
  (if x.negative then (-1 : ℚ) else 1) * (natOfDigits x.digits : ℚ) / (10 : ℚ) ^ x.scale

/-- `BigDecimal::isZero`: single digit equal to zero. -/
def isZero (x : BigDec) : Bool :=
  x.digits.length = 1 && x.digits.headI = 0

/-- The canonical zero `(+,[0],0)` produced by the default constructor. -/
def zeroBD : BigDec := ⟨[0], false, 0⟩

/-- `std::isspace` in the C locale, as used by the parser's trimming. -/
def isSpaceC (c : Char) : Bool :=
  c = ' ' || c = '\t' || c = '\n' || c = '\x0b' || c = '\x0c' || c = '\r'

/-- Leading/trailing whitespace strip performed by the `start`/`end`
index loops at the top of `BigDecimal::parseFromString`. -/
def trimWs (s : List Char) : List Char :=
  ((s.dropWhile isSpaceC).reverse.dropWhile isSpaceC).reverse

/-- ASCII decimal digit test (`c < '0' || c > '9'` in the source). -/
def isDigitC (c : Char) : Bool :=
  '0' ≤ c && c ≤ '9'

/-- Split a list at the first occurrence of `'.'`: this models the
source's `s.find('.')` returning `dotPos` together with the
`s.erase(dotPos, 1)` that follows (`before ++ after` is the erased
string, `after.length` is `s.size() - dotPos - 1`). -/
def splitDot : List Char → Option (List Char × List Char)
  | [] => none
  | c :: rest =>
    if c = '.' then some ([], rest)
    else match splitDot rest with
      | none => none
      | some (b, a) => some (c :: b, a)

/-- The leading-zero trim at the end of `BigDecimal::parseFromString`
and in `BigDecimal::trimLeadingZeros`: drop the maximal run of leading
zero digits; if everything was zero, reset to the canonical zero. -/
def trimLeadingZeros (x : BigDec) : BigDec :=
  let fz := (x.digits.takeWhile (· = 0)).length
  if fz = x.digits.length then ⟨[0], false, 0⟩
  else ⟨x.digits.drop fz, x.negative, x.scale⟩

/-- Digit-and-sign phase of `BigDecimal::parseFromString` after the dot
has been located and erased: every remaining character must be a digit,
at least one digit must exist, then leading zeros are trimmed (the
all-zero case resets sign and scale). -/
def parseDigits (u2 : List Char) (neg : Bool) (scale : Nat) : Except String BigDec :=
  if u2.any (fun c => !(isDigitC c)) then
    .error "Invalid character in numeric string"
  else if u2 = [] then
    .error "No digits in numeric string"
  else
    .ok (trimLeadingZeros ⟨u2.map (fun c => c.toNat - '0'.toNat), neg, scale⟩)

/-- `BigDecimal::parseFromString` (bigdec.hpp): trim surrounding
whitespace, take one optional sign, locate at most one `'.'` (a second
one is an error), erase it recording the scale, then parse the digits. -/
def parseFromString (s : List Char) : Except String BigDec :=
  let t := trimWs s
  if t = [] then .error "Empty numeric string"
  else
    let neg := t.headI = '-'
    let u := if t.headI = '+' || t.headI = '-' then t.tail else t
    if u = [] then .error "Empty numeric string after sign"
    else
      match splitDot u with
      | some (b, a) =>
        if a.any (· = '.') then .error "Multiple decimal points"
        else parseDigits (b ++ a) neg a.length
      | none => parseDigits u neg 0

/-- `BigDecimal::compareAbs`'s pointwise digit loop: first differing
position decides. -/
def lexCmp : List Nat → List Nat → Int
  | x :: xs, y :: ys => if x ≠ y then (if x < y then -1 else 1) else lexCmp xs ys
  | _, _ => 0

/-- `BigDecimal::compareAbs`: digit-vector length first, then
lexicographic. -/
def compareAbs (a b : List Nat) : Int :=
  if a.length ≠ b.length then (if a.length < b.length then -1 else 1)
  else lexCmp a b

/-- `BigDecimal::alignScales`: right-pad zero digits on the operand with
the smaller scale. -/
def alignScales (a b : BigDec) : BigDec × BigDec :=
  if a.scale = b.scale then (a, b)
  else if a.scale < b.scale then
    (⟨a.digits ++ List.replicate (b.scale - a.scale) 0, a.negative, b.scale⟩, b)
  else
    (a, ⟨b.digits ++ List.replicate (a.scale - b.scale) 0, b.negative, a.scale⟩)

/-- `BigDecimal::padLeft`: zero-extend the shorter vector at the front. -/
def padLeft (a b : List Nat) : List Nat × List Nat :=
  if a.length < b.length then (List.replicate (b.length - a.length) 0 ++ a, b)
  else if b.length < a.length then (a, List.replicate (a.length - b.length) 0 ++ b)
  else (a, b)

/-- The `for (i = n-1; i >= 0; --i)` addition loop of
`BigDecimal::addVectors`, written over least-significant-first lists;
the final carry is the element the source inserts at the front. -/
def addWithCarry : List Nat → List Nat → Nat → List Nat
  | x :: xs, y :: ys, c =>
    (x + y + c) % 10 :: addWithCarry xs ys ((x + y + c) / 10)
  | _, _, c => if c ≠ 0 then [c] else []

/-- `BigDecimal::addVectors`: pad to equal length, add with carry. -/
def addVectors (a b : List Nat) : List Nat :=
  let p := padLeft a b
  (addWithCarry p.1.reverse p.2.reverse 0).reverse

/-- The `for (i = n-1; i >= 0; --i)` subtraction loop of
`BigDecimal::subtractVectors` over least-significant-first lists; a
final borrow is silently dropped, exactly as in the fixed-size loop. -/
def subWithBorrow : List Nat → List Nat → Nat → List Nat
  | x :: xs, y :: ys, b =>
    if x < y + b then (x + 10 - (y + b)) :: subWithBorrow xs ys 1
    else (x - (y + b)) :: subWithBorrow xs ys 0
  | _, _, _ => []

/-- The partial leading-zero strip at the end of
`BigDecimal::subtractVectors` and `BigDecimal::multiply`
(`while (firstNonZero + 1 < res.size() && ...)`): always keeps at least
one digit. -/
def dropZerosKeepOne : List Nat → List Nat
  | [] => []
  | [x] => [x]
  | x :: y :: rest => if x = 0 then dropZerosKeepOne (y :: rest) else x :: y :: rest

/-- `BigDecimal::subtractVectors`. -/
def subtractVectors (a b : List Nat) : List Nat :=
  let p := padLeft a b
  dropZerosKeepOne (subWithBorrow p.1.reverse p.2.reverse 0).reverse

/-- `BigDecimal::addOrSubtract`, the common body of `+=` and `-=`. -/
def addOrSubtract (a other : BigDec) (isAddition : Bool) : BigDec :=
  let al := alignScales a other
  let lhs := al.1
  let rhs := if isAddition then al.2 else { al.2 with negative := !al.2.negative }
  if lhs.negative = rhs.negative then
    trimLeadingZeros ⟨addVectors lhs.digits rhs.digits, lhs.negative, lhs.scale⟩
  else
    let cmp := compareAbs lhs.digits rhs.digits
    if cmp = 0 then trimLeadingZeros ⟨[0], false, 0⟩
    else if 0 < cmp then
      trimLeadingZeros ⟨subtractVectors lhs.digits rhs.digits, lhs.negative, lhs.scale⟩
    else
      trimLeadingZeros ⟨subtractVectors rhs.digits lhs.digits, rhs.negative, lhs.scale⟩

/-- `operator+` on BigDecimal. -/
def add (a b : BigDec) : BigDec := addOrSubtract a b true

/-- `operator-` (binary) on BigDecimal. -/
def sub (a b : BigDec) : BigDec := addOrSubtract a b false

/-- Fuelled digit extraction: `n` itself always suffices as fuel, so
`natDigitsRev` below is total and computes by structural recursion. -/
def natDigitsRevF : Nat → Nat → List Nat
  | 0, _ => []
  | _ + 1, 0 => []
  | f + 1, n + 1 => (n + 1) % 10 :: natDigitsRevF f ((n + 1) / 10)

/-- Decimal digits of a positive number, least significant first (the
`std::to_string` conversion in the `long long` constructor). -/
def natDigitsRev (n : Nat) : List Nat := natDigitsRevF n n

/-- Digit vector of a natural number, most significant first. -/
def natDigits (n : Nat) : List Nat :=
  if n = 0 then [0] else (natDigitsRev n).reverse

/-- The `BigDecimal(long long)` constructor. -/
def ofInt (v : Int) : BigDec :=
  ⟨natDigits v.natAbs, decide (v < 0), 0⟩

/-- Inner (`j`) loop of `BigDecimal::multiply`: the argument counting
down is `j+1`, so index `j = m-1` is processed first. -/
def mulInnerGo (ai : Nat) (bd : List Nat) (i : Nat) :
    Nat → List Nat → Nat → (List Nat × Nat)
  | 0, tmp, carry => (tmp, carry)
  | j + 1, tmp, carry =>
    let idx := i + j + 1
    let prod := ai * bd.getD j 0 + tmp.getD idx 0 + carry
    mulInnerGo ai bd i j (tmp.set idx (prod % 10)) (prod / 10)

/-- Outer (`i`) loop of `BigDecimal::multiply`; after each inner loop
the remaining carry is added into `tmp[i]`. -/
def mulOuterGo (ad bd : List Nat) : Nat → List Nat → List Nat
  | 0, tmp => tmp
  | i + 1, tmp =>
    let r := mulInnerGo (ad.getD i 0) bd i bd.length tmp 0
    mulOuterGo ad bd i (r.1.set i (r.1.getD i 0 + r.2))

/-- `BigDecimal::multiply`: schoolbook digit multiplication. -/
def multiply (a b : BigDec) : BigDec :=
  if isZero a || isZero b then ⟨[0], false, 0⟩
  else
    let n := a.digits.length
    let m := b.digits.length
    let tmp := mulOuterGo a.digits b.digits n (List.replicate (n + m) 0)
    let res : BigDec := ⟨dropZerosKeepOne tmp, a.negative != b.negative, a.scale + b.scale⟩
    if isZero res then ⟨res.digits, false, 0⟩ else res

/-- The `for (d = 9; d >= 1; --d)` quotient-digit search inside
`BigDecimal::divide`: the largest `d` with `d·divisor ≤ remainder` is
taken and subtracted; if none fits the digit is `0`. -/
def qDigitSearch (b cur : BigDec) : Nat → (Nat × BigDec)
  | 0 => (0, cur)
  | d + 1 =>
    let t := multiply b (ofInt (d + 1))
    if compareAbs t.digits cur.digits ≤ 0 then (d + 1, sub cur t)
    else qDigitSearch b cur d

/-- One iteration of the dividend sweep in `BigDecimal::divide`:
append the next dividend digit to `current` (or overwrite `current[0]`
when it is zero), trim, then search for the quotient digit. -/
def divStep (b : BigDec) (st : BigDec × List Nat) (dig : Nat) : BigDec × List Nat :=
  let cur0 := st.1
  let cur1 : BigDec :=
    if !(isZero cur0) then { cur0 with digits := cur0.digits ++ [dig] }
    else { cur0 with digits := [dig] }
  let cur2 := { trimLeadingZeros cur1 with scale := 0 }
  let qc := qDigitSearch b cur2 9
  (qc.2, st.2 ++ [qc.1])

/-- `BigDecimal::divide` (with its `int precision` parameter kept as an
`Int`): align scales, discard them (their difference, `totalScale`,
is therefore zero), right-pad the dividend with `precision` zeros when
`precision > 0`, sweep most-to-least significant. -/
def divide (numerator denominator : BigDec) (precision : Int) : Except String BigDec :=
  if isZero denominator then .error "Division by zero"
  else
    let al := alignScales numerator denominator
    let totalScale : Nat := if 0 < precision then precision.toNat else 0
    let a : BigDec := ⟨al.1.digits ++ List.replicate totalScale 0, false, 0⟩
    let b : BigDec := ⟨al.2.digits, false, 0⟩
    let qds := (a.digits.foldl (divStep b) (zeroBD, ([] : List Nat))).2
    let res := trimLeadingZeros ⟨qds, numerator.negative != denominator.negative, totalScale⟩
    if isZero res then .ok ⟨res.digits, false, 0⟩ else .ok res

/-- Reference recursion for multiplying a digit vector (given least
significant first) by a single digit with carry; the inner/outer loops
of `multiply` reduce to this when the multiplier has one digit. -/
def mulDigitRev : List Nat → Nat → Nat → List Nat
  | [], _, c => [c]
  | x :: xs, d, c => (x * d + c) % 10 :: mulDigitRev xs d ((x * d + c) / 10)

/-- Modelled from the spec: the BigDecimal comparison operators
(`<`, `<=`, `>=`, `==` used by `lab/math.hpp`) are not present under
`src/`; §4.1 specifies them as: "Align scales; then compare sign, then
magnitude by digit-vector length, then lexicographically."  The
magnitude comparison is the source's `compareAbs`; for two negative
values the magnitude order is reversed. -/
def compareBD (a b : BigDec) : Ordering :=
  let al := alignScales a b
  if al.1.negative ≠ al.2.negative then (if al.1.negative then .lt else .gt)
  else
    let c := compareAbs al.1.digits al.2.digits
    if al.1.negative then (if c < 0 then .gt else if c = 0 then .eq else .lt)
    else (if c < 0 then .lt else if c = 0 then .eq else .gt)

/-- The pairs on which the spec's comparison algorithm disagrees with
the numerical order: one operand is zero and the other is strictly
between 0 and 1 (its digit vector is no longer than its scale), so that
aligning scales pads the zero into a longer all-zero vector that the
length comparison then misjudges. -/
def CmpExceptional (a b : BigDec) : Prop :=
  (isZero a = true ∧ isZero b = false ∧ b.negative = false ∧ b.digits.length ≤ b.scale) ∨
  (isZero b = true ∧ isZero a = false ∧ a.negative = false ∧ a.digits.length ≤ a.scale)

instance (a b : BigDec) : Decidable (CmpExceptional a b) := by
  unfold CmpExceptional
  infer_instance

/-- The numeral shape `parseFromString` accepts (used for the parsing
characterization): after trimming, an optional sign followed by a
non-empty run of digits and at most one `'.'` containing at least one
digit. -/
def GoodNumeral (s : List Char) : Bool :=
  let t := trimWs s
  match t with
  | [] => false
  | c :: rest =>
    let u := if c = '+' || c = '-' then rest else t
    decide (u ≠ []) &&
    u.all (fun c => isDigitC c || c = '.') &&
    decide (u.countP (· = '.') ≤ 1) &&
    u.any isDigitC

/-- The success set asserted by the specification sentence: at most one
`'.'` strictly inside the digit sequence, i.e. with at least one digit
on both sides (so a leading or trailing dot is rejected). -/
def ClaimStrictNumeral (s : List Char) : Bool :=
  let t := trimWs s
  match t with
  | [] => false
  | c :: rest =>
    let u := if c = '+' || c = '-' then rest else t
    decide (u ≠ []) &&
    u.all (fun c => isDigitC c || c = '.') &&
    ((u.countP (· = '.') = 0 && u.any isDigitC) ||
     (u.countP (· = '.') = 1 &&
      decide (u.takeWhile (· ≠ '.') ≠ []) &&
      (u.takeWhile (· ≠ '.')).all isDigitC &&
      decide ((u.dropWhile (· ≠ '.')).tail ≠ []) &&
      ((u.dropWhile (· ≠ '.')).tail).all isDigitC))

/-! ### Digit-vector invariants and value lemmas -/

/-- Every entry of a digit vector is a decimal digit. -/
def DigitsOK (l : List Nat) : Prop := ∀ d ∈ l, d < 10

/-- A digit vector in the canonical form maintained by the source:
non-empty, decimal digits, and no leading zero unless it is exactly
`[0]`. -/
def CanonDigits (l : List Nat) : Prop :=
  l ≠ [] ∧ DigitsOK l ∧ (l.headI = 0 → l = [0])

/-- The §3 invariant on a whole `BigDec`: canonical digit vector, and
the zero magnitude is exactly the canonical zero `(+,[0],0)`. -/
def Canonical (x : BigDec) : Prop :=
  x.digits ≠ [] ∧ DigitsOK x.digits ∧ (x.digits.headI = 0 → x = zeroBD)

instance : DecidablePred DigitsOK := fun l =>
  inferInstanceAs (Decidable (∀ d ∈ l, d < 10))

instance : DecidablePred Canonical := fun x =>
  inferInstanceAs (Decidable (_ ∧ _ ∧ _))

/-! ### HTTP router (web/http_server/http_server.cpp) -/

/-- `std::string::find(c, pos)` for a single character: the first index at
or after `start` holding `c`, with the string length standing for `npos`
(every caller below treats `npos` and end-of-string alike). -/
def findFrom (s : List Char) (c : Char) (start : Nat) : Nat :=
  match (s.drop start).findIdx? (fun x => x = c) with
  | some k => start + k
  | none => s.length

/-- The `next_seg` lambda of `Router::match_pattern`: from position `pos`,
skip one leading `'/'`, then read up to the next `'/'`; returns the
segment together with the updated position (the C++ passes `pos` by
reference). -/
def nextSeg (s : List Char) (pos : Nat) : List Char × Nat :=
  if s.length ≤ pos then ([], pos)
  else
    let pos1 := if s.getD pos ' ' = '/' then pos + 1 else pos
    if s.length ≤ pos1 then ([], pos1)
    else
      let e := findFrom s '/' pos1
      ((s.drop pos1).take (e - pos1), e)

/-- Does the substring `sub` occur in `s` at index `k`? -/
def substrAt (s sub : List Char) (k : Nat) : Bool :=
  (s.drop k).take sub.length = sub

/-- `std::string::find(sub, start)`: the first index at or after `start`
where `sub` occurs, `none` for `npos`. -/
def strFind (s sub : List Char) (start : Nat) : Option Nat :=
  match (List.range (s.length + 1 - start)).find? (fun d => substrAt s sub (start + d)) with
  | some d => some (start + d)
  | none => none

/-- `out_params[name] = value` on the capture map: overwrite the existing
entry or append a new one (iteration order of the `unordered_map` is
irrelevant to every use site, so an association list represents it). -/
def mapSet : List (List Char × List Char) → List Char → List Char →
    List (List Char × List Char)
  | [], k, v => [(k, v)]
  | (k', v') :: rest, k, v =>
    if k' = k then (k, v) :: rest else (k', v') :: mapSet rest k v

/-- The `while (true)` loop of `Router::match_pattern`, with explicit fuel:
the loop strictly advances the path position on every iteration that
continues, so `pattern.length + path.length + 2` steps always suffice; the
`none` result doubles for the C++ `return false` (the partially filled
`out_params` of a failed match is never read by the caller). -/
def matchLoopF : Nat → List Char → List Char → Nat → Nat →
    List (List Char × List Char) → Option (List (List Char × List Char))
  | 0, _, _, _, _, _ => none
  | fuel + 1, pattern, path, i, j, params =>
    let pr := nextSeg pattern i
    let sr := nextSeg path j
    let pseg := pr.1
    let i2 := pr.2
    let sseg := sr.1
    let j2 := sr.2
    let pEnd := pseg = [] ∧ pattern.length ≤ i2
    let sEnd := sseg = [] ∧ path.length ≤ j2
    if pEnd ∧ sEnd then some params
    else if pseg = [] ∧ ¬pEnd then none
    else if ¬pEnd ∧ pseg ≠ [] ∧ pseg.headI = '*' then
      let name := pseg.tail
      let rest :=
        if sseg ≠ [] then
          match strFind path sseg (j2 - sseg.length) with
          | some sp => path.drop sp
          | none => sseg
        else []
      some (mapSet params name rest)
    else if sEnd ∧ ¬pEnd then none
    else if pseg ≠ [] ∧ pseg.headI = ':' then
      let params2 := mapSet params pseg.tail sseg
      if pattern.length ≤ i2 ∧ path.length ≤ j2 then some params2
      else matchLoopF fuel pattern path i2 j2 params2
    else if pseg ≠ sseg then none
    else if pattern.length ≤ i2 ∧ path.length ≤ j2 then some params
    else matchLoopF fuel pattern path i2 j2 params

/-- `Router::match_pattern`: `some` holds the captured parameters of a
successful match, `none` is `return false`. -/
def matchPattern (pattern path : List Char) : Option (List (List Char × List Char)) :=
  matchLoopF (pattern.length + path.length + 2) pattern path 0 0 []

/-- Reassemble a clean segment list into the `'/'`-separated string whose
segments they are: `pathStr [a, b] = "/a/b"`, `pathStr [] = ""`. -/
def pathStr : List (List Char) → List Char
  | [] => []
  | sg :: rest => '/' :: (sg ++ pathStr rest)

/-- The remainder of the path from a given segment onward, including the
intermediate `'/'` characters: `joinSegs [a, b] = "a/b"`. -/
def joinSegs : List (List Char) → List Char
  | [] => []
  | sg :: rest => sg ++ pathStr rest

/-- A clean segment list: every segment is non-empty and slash-free, so
`pathStr` is injective on it and `nextSeg` walks it one segment at a
time. -/
def CleanSegs (l : List (List Char)) : Prop :=
  ∀ sg ∈ l, sg ≠ [] ∧ ∀ x ∈ sg, ¬(x = '/')

instance : DecidablePred CleanSegs := fun l =>
  inferInstanceAs (Decidable (∀ sg ∈ l, _ ∧ _))

/-- Modelled from the spec: §4.3 describes matching as "segmentize both
pattern and path on `/`, compare segment-by-segment; `:name` captures one
segment; `*name` captures the remainder (including intermediate `/`s) and
ends matching. Matching terminates successfully only when pattern and path
segments are simultaneously exhausted or a `*` segment consumed the
rest." This matcher follows those words on segment lists; the refinement
theorem compares it with the source's `matchPattern`. -/
def cleanMatch : List (List Char) → List (List Char) →
    List (List Char × List Char) → Option (List (List Char × List Char))
  | [], [], params => some params
  | [], _ :: _, _ => none
  | p :: ps, segs, params =>
    if p ≠ [] ∧ p.headI = '*' then
      some (mapSet params p.tail (joinSegs segs))
    else
      match segs with
      | [] => none
      | sg :: ss =>
        if p ≠ [] ∧ p.headI = ':' then cleanMatch ps ss (mapSet params p.tail sg)
        else if p = sg then cleanMatch ps ss params
        else none

/-- `http::HttpMethod`. -/
inductive HttpMethod where
  | get | post | put | delete_ | patch | options | head | unknown
deriving DecidableEq

/-- `http::parse_method`. -/
def parseMethod (s : List Char) : HttpMethod :=
  if s = "GET".toList then .get
  else if s = "POST".toList then .post
  else if s = "PUT".toList then .put
  else if s = "DELETE".toList then .delete_
  else if s = "PATCH".toList then .patch
  else if s = "OPTIONS".toList then .options
  else if s = "HEAD".toList then .head
  else .unknown

/-- One entry of `Router::routes_`: the method string and the path
pattern (the handler itself is abstracted away; dispatching to it is the
`handled` outcome below). -/
structure RouteEntry where
  method : List Char
  pattern : List Char
deriving DecidableEq

/-- The observable outcome of `Router::route`: 400 with no route
consulted, a handler invocation with its captured path parameters, 405
with the sorted `Allow` set (the header joins it with ", "), or 404. -/
inductive RouteResult where
  | badRequest
  | handled (method : List Char) (pattern : List Char)
      (params : List (List Char × List Char))
  | methodNotAllowed (allow : List (List Char))
  | notFound
deriving DecidableEq

/-- `std::string` `operator<`: lexicographic by character code. -/
def strLt : List Char → List Char → Bool
  | [], [] => false
  | [], _ :: _ => true
  | _ :: _, [] => false
  | a :: as, b :: bs =>
    if a.toNat < b.toNat then true
    else if b.toNat < a.toNat then false
    else strLt as bs

/-- `std::set<std::string>::insert`: keep the list sorted ascending and
free of duplicates. -/
def insertSorted : List (List Char) → List Char → List (List Char)
  | [], m => [m]
  | x :: xs, m =>
    if strLt m x then m :: x :: xs
    else if x = m then x :: xs
    else x :: insertSorted xs m

/-- The route-table loop of `Router::route`: first matching route with the
request's method wins (a break), every matching route's method enters the
allowed set; afterwards a non-empty allowed set yields 405, otherwise
404. -/
def routeGo : List RouteEntry → List Char → List Char → List (List Char) →
    RouteResult
  | [], _, _, allowed =>
    if allowed ≠ [] then .methodNotAllowed allowed else .notFound
  | r :: rs, method, path, allowed =>
    match matchPattern r.pattern path with
    | none => routeGo rs method path allowed
    | some params =>
      let allowed2 := insertSorted allowed r.method
      if r.method = method then .handled r.method r.pattern params
      else routeGo rs method path allowed2

/-- `Router::route`: only an empty method string short-circuits to 400;
any non-empty token, known or not, goes through the table. -/
def route (routes : List RouteEntry) (methodStr path : List Char) : RouteResult :=
  if methodStr = [] then .badRequest
  else routeGo routes methodStr path []

/-! ### Query strings (web/http_server/http_server.cpp, http_server.hpp) -/

/-- The `hex` lambda inside `url_decode` (and the identical hex-digit
table of the JSON `\u` escape): value of one hex digit, `none` for the
C++ `-1`. -/
def hexVal (h : Char) : Option Nat :=
  if '0' ≤ h ∧ h ≤ '9' then some (h.toNat - '0'.toNat)
  else if 'a' ≤ h ∧ h ≤ 'f' then some (h.toNat - 'a'.toNat + 10)
  else if 'A' ≤ h ∧ h ≤ 'F' then some (h.toNat - 'A'.toNat + 10)
  else none

/-- `url_decode`: `'+'` becomes a space; `'%'` followed by two hex digits
(the C++ guard `i + 2 < s.size()` says exactly that both exist) becomes
the byte `(hi << 4) | lo`; everything else, including a `'%'` with an
invalid or missing pair, passes through unchanged. -/
def url_decode : List Char → List Char
  | [] => []
  | '+' :: rest => ' ' :: url_decode rest
  | '%' :: h1 :: h2 :: rest =>
    match hexVal h1, hexVal h2 with
    | some hi, some lo => Char.ofNat ((hi <<< 4) ||| lo) :: url_decode rest
    | _, _ => '%' :: url_decode (h1 :: h2 :: rest)
  | c :: rest => c :: url_decode rest

/-- `params[key].push_back(value)`: append the value to the key's vector,
creating the entry if absent (association list in first-insertion order;
`unordered_map` iteration order is never observed by the accessors). -/
def qpAdd : List (List Char × List (List Char)) → List Char → List Char →
    List (List Char × List (List Char))
  | [], k, v => [(k, [v])]
  | (k', vs) :: rest, k, v =>
    if k' = k then (k', vs ++ [v]) :: rest else (k', vs) :: qpAdd rest k v

/-- The key/value extraction of one `pair` in `parse_query_string`: an
empty pair is skipped, the pair splits at its first `'='` (no `'='` means
an empty value), both halves are url-decoded, and an empty decoded key is
skipped. -/
def qpPair (pair : List Char) : Option (List Char × List Char) :=
  if pair = [] then none
  else
    let kk := pair.takeWhile (fun c => ¬(c = '='))
    let key := url_decode kk
    let value := if kk.length = pair.length then [] else url_decode (pair.drop (kk.length + 1))
    if key = [] then none else some (key, value)

/-- One iteration of the `parse_query_string` loop: extract the pair and
append its value, or skip. -/
def qpStep (acc : List (List Char × List (List Char))) (pair : List Char) :
    List (List Char × List (List Char)) :=
  match qpPair pair with
  | none => acc
  | some kv => qpAdd acc kv.1 kv.2

/-- `parse_query_string`: the C++ `find('&')` loop visits exactly the
`'&'`-separated pieces; its only difference from `splitOn` — no empty
piece after a trailing `'&'` — is invisible because empty pairs are
skipped. -/
def parse_query_string (raw : List Char) : List (List Char × List (List Char)) :=
  (raw.splitOn '&').foldl qpStep []

/-- `unordered_map::find` on the query map. -/
def qpFind : List (List Char × List (List Char)) → List Char →
    Option (List (List Char))
  | [], _ => none
  | (k', vs) :: rest, k => if k' = k then some vs else qpFind rest k

/-- `QueryParams::get`: absent key or empty vector gives `none`, else the
front (first-inserted) value. -/
def qpGet (m : List (List Char × List (List Char))) (k : List Char) : Option (List Char) :=
  match qpFind m k with
  | none => none
  | some [] => none
  | some (v :: _) => some v

/-- `std::stoi` as used by `get_int`: optional whitespace, optional sign,
at least one decimal digit (trailing junk ignored), failure outside the
32-bit `int` range or with no digits — both C++ exceptions are caught and
become `none`. -/
def stoiModel (s : List Char) : Option Int :=
  let t := s.dropWhile isSpaceC
  let neg := t.headI = '-'
  let t1 := if t.headI = '+' ∨ t.headI = '-' then t.tail else t
  let ds := t1.takeWhile isDigitC
  if ds = [] then none
  else
    let v : Int := (if neg then -1 else 1) * (natOfDigits (ds.map (fun c => c.toNat - '0'.toNat)) : Int)
    if v < -2147483648 ∨ 2147483647 < v then none else some v

/-- `std::stod` as used by `get_double`, idealized to exact rational
arithmetic on the ordinary decimal forms (sign, digits, optional fraction
and exponent, trailing junk ignored); the hexadecimal/infinity/NaN forms
of `strtod` and the rounding to `double` are not modelled — no theorem
below depends on the numeric value it returns. -/
def stodModel (s : List Char) : Option ℚ :=
  let t := s.dropWhile isSpaceC
  let neg := t.headI = '-'
  let t1 := if t.headI = '+' ∨ t.headI = '-' then t.tail else t
  let ip := t1.takeWhile isDigitC
  let t2 := t1.drop ip.length
  let fr := if t2.headI = '.' then (t2.tail.takeWhile isDigitC) else []
  let t3 := if t2.headI = '.' then t2.tail.drop fr.length else t2
  if ip = [] ∧ fr = [] then none
  else
    let mant : ℚ := ((natOfDigits ((ip ++ fr).map (fun c => c.toNat - '0'.toNat)) : ℚ)) / 10 ^ fr.length
    let base : ℚ := (if neg then -1 else 1) * mant
    match t3 with
    | c :: r =>
      if c = 'e' ∨ c = 'E' then
        let eneg := r.headI = '-'
        let r1 := if r.headI = '+' ∨ r.headI = '-' then r.tail else r
        let eds := r1.takeWhile isDigitC
        if eds = [] then some base
        else
          let ev := natOfDigits (eds.map (fun c => c.toNat - '0'.toNat))
          some (base * (if eneg then 1 / 10 ^ ev else 10 ^ ev))
      else some base
    | [] => some base

/-- `std::tolower` on ASCII. -/
def toLowerC (c : Char) : Char :=
  if 'A' ≤ c ∧ c ≤ 'Z' then Char.ofNat (c.toNat + 32) else c

/-- The truth-word table of `QueryParams::get_bool` after lowercasing. -/
def boolOfWord (s : List Char) : Option Bool :=
  let t := s.map toLowerC
  if t = "1".toList ∨ t = "true".toList ∨ t = "yes".toList ∨ t = "on".toList then some true
  else if t = "0".toList ∨ t = "false".toList ∨ t = "no".toList ∨ t = "off".toList then some false
  else none

/-- `QueryParams::get_int`. -/
def qpGetInt (m : List (List Char × List (List Char))) (k : List Char) : Option Int :=
  (qpGet m k).bind stoiModel

/-- `QueryParams::get_double`. -/
def qpGetDouble (m : List (List Char × List (List Char))) (k : List Char) : Option ℚ :=
  (qpGet m k).bind stodModel

/-- `QueryParams::get_bool`. -/
def qpGetBool (m : List (List Char × List (List Char))) (k : List Char) : Option Bool :=
  (qpGet m k).bind boolOfWord

/-- The first-occurrence reading of the query string, written directly
from the raw text: decode each non-empty pair in order, keep those with a
non-empty key, and take the value of the first whose key is `k`. The C10
theorem proves `qpGet` of the parsed map returns exactly this. -/
def firstVal (raw : List Char) (k : List Char) : Option (List Char) :=
  (((raw.splitOn '&').filterMap qpPair).find? (fun p => p.1 = k)).map (fun p => p.2)

/-! ### JSON (json/json.hpp) -/

/-- `JsonValue`.  The `Number` alternative holds an IEEE-754 `double` in
the source (produced by `strtod`); it is idealized here as the exact
rational value of the numeral — C8 records the consequences of the
`double` round-trip, no theorem below depends on rounding.  An object is
the association list of its entries in first-insertion order; the
`unordered_map` itself is unordered, and all facts about objects are
stated through `objLookup`. -/
inductive Json where
  | null
  | bool (b : Bool)
  | num (q : ℚ)
  | str (s : List Char)
  | arr (elems : List Json)
  | obj (fields : List (List Char × Json))

/-- `obj.emplace(key, val)`: inserts only if the key is absent — an
existing entry is left untouched and the new value is discarded. -/
def objEmplace (obj : List (List Char × Json)) (k : List Char) (v : Json) :
    List (List Char × Json) :=
  if obj.any (fun p => p.1 = k) then obj else obj ++ [(k, v)]

/-- `unordered_map::find` on an object. -/
def objLookup : List (List Char × Json) → List Char → Option Json
  | [], _ => none
  | (k', v) :: rest, k => if k' = k then some v else objLookup rest k

/-- `JsonParser::skip_ws`. -/
def jSkipWs (s : List Char) : List Char := s.dropWhile isSpaceC

/-- `JsonParser::expect(literal)`: all of `literal` must follow,
character by character. -/
def jExpect (lit s : List Char) : Except String (List Char) :=
  if lit.isPrefixOf s then .ok (s.drop lit.length)
  else .error "Expected literal"

/-- The escape table of `parse_string` (the simple one-character
escapes). -/
def escChar (e : Char) : Option Char :=
  if e = '"' then some '"'
  else if e = '\\' then some '\\'
  else if e = '/' then some '/'
  else if e = 'b' then some (Char.ofNat 8)
  else if e = 'f' then some (Char.ofNat 12)
  else if e = 'n' then some (Char.ofNat 10)
  else if e = 'r' then some (Char.ofNat 13)
  else if e = 't' then some (Char.ofNat 9)
  else none

/-- The body loop of `JsonParser::parse_string`, after the opening quote:
returns the decoded content and the rest of the input past the closing
quote.  The `\u` escape needs four hex digits and is encoded to UTF-8
bytes exactly as in the source; a `\u` with fewer than four characters
left is the C++ `pos + 4 > s.size()` error. -/
def parseStringBody : List Char → Except String (List Char × List Char)
  | [] => .error "Unterminated string"
  | '"' :: rest => .ok ([], rest)
  | '\\' :: 'u' :: h1 :: h2 :: h3 :: h4 :: rest =>
    (match hexVal h1, hexVal h2, hexVal h3, hexVal h4 with
     | some v1, some v2, some v3, some v4 =>
       let code := ((((v1 <<< 4) ||| v2) <<< 4 ||| v3) <<< 4) ||| v4
       let bytes :=
         if code ≤ 0x7F then [Char.ofNat code]
         else if code ≤ 0x7FF then
           [Char.ofNat (0xC0 ||| (code >>> 6)), Char.ofNat (0x80 ||| (code &&& 0x3F))]
         else
           [Char.ofNat (0xE0 ||| (code >>> 12)),
            Char.ofNat (0x80 ||| ((code >>> 6) &&& 0x3F)),
            Char.ofNat (0x80 ||| (code &&& 0x3F))]
       (fun p => (bytes ++ p.1, p.2)) <$> parseStringBody rest
     | _, _, _, _ => .error "Invalid unicode escape")
  | '\\' :: e :: rest =>
    if e = 'u' then .error "Invalid unicode escape"
    else
      match escChar e with
      | some c2 => (fun p => (c2 :: p.1, p.2)) <$> parseStringBody rest
      | none => .error "Invalid escape character in string"
  | ['\\'] => .error "Unterminated escape sequence"
  | c :: rest => (fun p => (c :: p.1, p.2)) <$> parseStringBody rest

/-- `JsonParser::parse_string`: opening quote then the body loop. -/
def parseJString (s : List Char) : Except String (List Char × List Char) :=
  match s with
  | '"' :: rest => parseStringBody rest
  | _ => .error "Expected opening quote for string"

/-- The fraction scan of `parse_number`: after a `'.'` at least one digit
must follow. -/
def parseFrac (s : List Char) : Except String (List Char × List Char) :=
  match s with
  | '.' :: r =>
    let fr := r.takeWhile isDigitC
    if fr = [] then .error "Invalid number"
    else .ok (fr, r.drop fr.length)
  | _ => .ok ([], s)

/-- The exponent scan of `parse_number`: `e`/`E`, an optional sign, then
at least one digit. -/
def parseExp (s : List Char) : Except String (Bool × List Nat × List Char) :=
  match s with
  | c :: r =>
    if c = 'e' ∨ c = 'E' then
      let eneg := r.headI = '-'
      let r1 := if r.headI = '+' ∨ r.headI = '-' then r.tail else r
      let eds := r1.takeWhile isDigitC
      if eds = [] then .error "Invalid number"
      else .ok (eneg, eds.map (fun d => d.toNat - '0'.toNat), r1.drop eds.length)
    else .ok (false, [], s)
  | [] => .ok (false, [], s)

/-- `JsonParser::parse_number`: optional `'-'`; either a single `'0'` or a
nonzero digit followed by digits; optional fraction and exponent; the
value is the exact rational of the numeral (see the `Json.num`
idealization note). -/
def parseNumber (s : List Char) : Except String (Json × List Char) :=
  let neg := s.headI = '-'
  let s1 := if s.headI = '-' then s.tail else s
  match s1 with
  | [] => .error "Invalid number"
  | c :: r1 =>
    let ipOk : Option (List Char × List Char) :=
      if c = '0' then some (['0'], r1)
      else if '1' ≤ c ∧ c ≤ '9' then some (s1.takeWhile isDigitC, s1.dropWhile isDigitC)
      else none
    match ipOk with
    | none => .error "Invalid number"
    | some (ip, s2) =>
      match parseFrac s2 with
      | .error e => .error e
      | .ok (fr, s3) =>
        match parseExp s3 with
        | .error e => .error e
        | .ok (eneg, eds, s4) =>
          let mant : ℚ := ((natOfDigits ((ip ++ fr).map (fun d => d.toNat - '0'.toNat)) : ℚ)) / 10 ^ fr.length
          let ev := natOfDigits eds
          let q : ℚ := (if neg then -1 else 1) * mant * (if eneg then 1 / 10 ^ ev else 10 ^ ev)
          .ok (Json.num q, s4)

/-- The mode of the fused recursive parser: a value, the element loop of
`parse_array` carrying the elements so far, or the member loop of
`parse_object` carrying the object so far. -/
inductive PKind where
  | value
  | arrayLoop (acc : List Json)
  | objectLoop (acc : List (List Char × Json))

/-- `parse_value`, the `parse_array` loop and the `parse_object` loop of
`JsonParser`, fused into one function so that the recursion is structural
on an explicit fuel (every mutual call strictly consumes fuel, and a
value consumes at least one character per two fuel units, so
`2·length + 2` fuel always suffices; the fuel error is unreachable from
`jsonParse`). -/
def parseCoreF : Nat → PKind → List Char → Except String (Json × List Char)
  | 0, _, _ => .error "Out of fuel"
  | fuel + 1, PKind.value, s =>
    match s with
    | [] => .error "Unexpected end of input while parsing value"
    | c :: _ =>
      if c = 'n' then (fun r => (Json.null, r)) <$> jExpect "null".toList s
      else if c = 't' then (fun r => (Json.bool true, r)) <$> jExpect "true".toList s
      else if c = 'f' then (fun r => (Json.bool false, r)) <$> jExpect "false".toList s
      else if c = '"' then (fun p => (Json.str p.1, p.2)) <$> parseJString s
      else if c = '[' then
        let r1 := jSkipWs s.tail
        match r1 with
        | ']' :: r2 => .ok (Json.arr [], r2)
        | _ => parseCoreF fuel (PKind.arrayLoop []) r1
      else if c = '{' then
        let r1 := jSkipWs s.tail
        match r1 with
        | '}' :: r2 => .ok (Json.obj [], r2)
        | _ => parseCoreF fuel (PKind.objectLoop []) r1
      else if c = '-' ∨ ('0' ≤ c ∧ c ≤ '9') then parseNumber s
      else .error "Unexpected character while parsing value"
  | fuel + 1, PKind.arrayLoop acc, s =>
    match parseCoreF fuel PKind.value (jSkipWs s) with
    | .error e => .error e
    | .ok (v, s2) =>
      match jSkipWs s2 with
      | [] => .error "Unterminated array"
      | c :: s4 =>
        if c = ']' then .ok (Json.arr (acc ++ [v]), s4)
        else if c = ',' then parseCoreF fuel (PKind.arrayLoop (acc ++ [v])) s4
        else .error "Expected comma or close bracket in array"
  | fuel + 1, PKind.objectLoop acc, s =>
    match jSkipWs s with
    | '"' :: k1 =>
      match parseStringBody k1 with
      | .error e => .error e
      | .ok (key, s2) =>
        match jSkipWs s2 with
        | ':' :: s4 =>
          match parseCoreF fuel PKind.value (jSkipWs s4) with
          | .error e => .error e
          | .ok (v, s5) =>
            let acc2 := objEmplace acc key v
            match jSkipWs s5 with
            | [] => .error "Unterminated object"
            | c :: s7 =>
              if c = '}' then .ok (Json.obj acc2, s7)
              else if c = ',' then parseCoreF fuel (PKind.objectLoop acc2) s7
              else .error "Expected comma or close brace in object"
        | _ => .error "Expected colon after key in object"
    | _ => .error "Expected string key in object"

/-- `JsonParser::parse` (via `json::parse`): skip whitespace, one value,
skip whitespace, and demand the input be exhausted. -/
def jsonParse (text : List Char) : Except String Json :=
  match parseCoreF (2 * text.length + 2) PKind.value (jSkipWs text) with
  | .error e => .error e
  | .ok (v, rest) =>
    if jSkipWs rest = [] then .ok v
    else .error "Extra characters after valid JSON"

theorem natOfDigits_go (l : List Nat) (acc : Nat) :
    l.foldl (fun acc d => 10 * acc + d) acc = acc * 10 ^ l.length + natOfDigits l := by
  induction l generalizing acc with
  | nil => simp [natOfDigits]
  | cons x xs ih =>
    simp only [List.foldl_cons, natOfDigits, List.length_cons]
    rw [ih (10 * acc + x), ih (10 * 0 + x)]
    ring

theorem natOfDigits_nil : natOfDigits [] = 0 := rfl

theorem natOfDigits_cons (d : Nat) (l : List Nat) :
    natOfDigits (d :: l) = d * 10 ^ l.length + natOfDigits l := by
  simpa [natOfDigits] using natOfDigits_go l d

theorem natOfDigits_singleton (d : Nat) : natOfDigits [d] = d := by
  simp [natOfDigits]

theorem natOfDigits_append (l1 l2 : List Nat) :
    natOfDigits (l1 ++ l2) = natOfDigits l1 * 10 ^ l2.length + natOfDigits l2 := by
  simpa [natOfDigits, List.foldl_append] using natOfDigits_go l2 (natOfDigits l1)

theorem natOfDigits_replicate_zero (k : Nat) :
    natOfDigits (List.replicate k 0) = 0 := by
  induction k with
  | zero => rfl
  | succ n ih => rw [List.replicate_succ, natOfDigits_cons, ih]; simp

theorem natOfDigits_replicate_append (k : Nat) (l : List Nat) :
    natOfDigits (List.replicate k 0 ++ l) = natOfDigits l := by
  rw [natOfDigits_append, natOfDigits_replicate_zero]; ring

theorem natOfDigits_append_replicate (l : List Nat) (k : Nat) :
    natOfDigits (l ++ List.replicate k 0) = natOfDigits l * 10 ^ k := by
  rw [natOfDigits_append, natOfDigits_replicate_zero, List.length_replicate]; simp

theorem natOfDigits_lt (l : List Nat) (h : DigitsOK l) :
    natOfDigits l < 10 ^ l.length := by
  induction l with
  | nil => simp [natOfDigits]
  | cons x xs ih =>
    have hx : x < 10 := h x (List.mem_cons_self _ _)
    have hxs : natOfDigits xs < 10 ^ xs.length :=
      ih (fun d hd => h d (List.mem_cons_of_mem _ hd))
    rw [natOfDigits_cons]
    calc x * 10 ^ xs.length + natOfDigits xs
        < x * 10 ^ xs.length + 10 ^ xs.length := by omega
      _ = (x + 1) * 10 ^ xs.length := by ring
      _ ≤ 10 * 10 ^ xs.length := by
          exact Nat.mul_le_mul_right _ (by omega)
      _ = 10 ^ (x :: xs).length := by
          rw [List.length_cons, pow_succ]; ring

theorem le_natOfDigits_of_head (d : Nat) (l : List Nat) (h : 1 ≤ d) :
    10 ^ l.length ≤ natOfDigits (d :: l) := by
  rw [natOfDigits_cons]
  have : 1 * 10 ^ l.length ≤ d * 10 ^ l.length := Nat.mul_le_mul_right _ h
  omega

theorem natOfDigits_eq_zero_iff (l : List Nat) :
    natOfDigits l = 0 ↔ ∀ d ∈ l, d = 0 := by
  induction l with
  | nil => simp [natOfDigits]
  | cons x xs ih =>
    rw [natOfDigits_cons]
    constructor
    · intro h d hd
      have hx : x = 0 := by
        by_contra hx
        have : 1 ≤ x := Nat.one_le_iff_ne_zero.mpr hx
        have := le_natOfDigits_of_head x xs this
        rw [natOfDigits_cons] at this
        have : 0 < 10 ^ xs.length := Nat.pos_pow_of_pos _ (by omega)
        omega
      rcases List.mem_cons.mp hd with h1 | h1
      · omega
      · have hxs : natOfDigits xs = 0 := by omega
        exact ih.mp hxs d h1
    · intro h
      have hx : x = 0 := h x (List.mem_cons_self _ _)
      have hxs : natOfDigits xs = 0 :=
        ih.mpr (fun d hd => h d (List.mem_cons_of_mem _ hd))
      simp [hx, hxs]

theorem valL_nil : valL [] = 0 := rfl

theorem valL_cons (x : Nat) (xs : List Nat) : valL (x :: xs) = x + 10 * valL xs := rfl

theorem natOfDigits_reverse (l : List Nat) : natOfDigits l.reverse = valL l := by
  induction l with
  | nil => rfl
  | cons x xs ih =>
    rw [List.reverse_cons, natOfDigits_append, ih, natOfDigits_singleton, valL_cons]
    simp [Nat.add_comm, Nat.mul_comm]

theorem valL_reverse (l : List Nat) : valL l.reverse = natOfDigits l := by
  rw [← natOfDigits_reverse, List.reverse_reverse]

/-- Digit-wise injectivity: equal-length bounded digit vectors with the
same value coincide. -/
theorem natOfDigits_inj (a b : List Nat) (hl : a.length = b.length)
    (ha : DigitsOK a) (hb : DigitsOK b)
    (hv : natOfDigits a = natOfDigits b) : a = b := by
  induction a generalizing b with
  | nil => cases b with
    | nil => rfl
    | cons y ys => simp at hl
  | cons x xs ih =>
    cases b with
    | nil => simp at hl
    | cons y ys =>
      have hlen : xs.length = ys.length := by simpa using hl
      rw [natOfDigits_cons, natOfDigits_cons, hlen] at hv
      have hxs : natOfDigits xs < 10 ^ ys.length := by
        rw [← hlen]; exact natOfDigits_lt xs (fun d hd => ha d (List.mem_cons_of_mem _ hd))
      have hys : natOfDigits ys < 10 ^ ys.length :=
        natOfDigits_lt ys (fun d hd => hb d (List.mem_cons_of_mem _ hd))
      have hxy : x = y := by
        rcases Nat.lt_trichotomy x y with h | h | h
        · exfalso
          have : (x + 1) * 10 ^ ys.length ≤ y * 10 ^ ys.length :=
            Nat.mul_le_mul_right _ (by omega)
          have : x * 10 ^ ys.length + 10 ^ ys.length ≤ y * 10 ^ ys.length := by
            calc x * 10 ^ ys.length + 10 ^ ys.length = (x + 1) * 10 ^ ys.length := by ring
              _ ≤ y * 10 ^ ys.length := this
          omega
        · exact h
        · exfalso
          have : (y + 1) * 10 ^ ys.length ≤ x * 10 ^ ys.length :=
            Nat.mul_le_mul_right _ (by omega)
          have : y * 10 ^ ys.length + 10 ^ ys.length ≤ x * 10 ^ ys.length := by
            calc y * 10 ^ ys.length + 10 ^ ys.length = (y + 1) * 10 ^ ys.length := by ring
              _ ≤ x * 10 ^ ys.length := this
          omega
      subst hxy
      have hv' : natOfDigits xs = natOfDigits ys := by omega
      rw [ih ys hlen (fun d hd => ha d (List.mem_cons_of_mem _ hd))
        (fun d hd => hb d (List.mem_cons_of_mem _ hd)) hv']

/-- A canonical digit vector other than `[0]` has a non-zero head. -/
theorem canonDigits_bounds (l : List Nat) (h : CanonDigits l) (hne : l ≠ [0]) :
    10 ^ (l.length - 1) ≤ natOfDigits l ∧ natOfDigits l < 10 ^ l.length := by
  obtain ⟨hnil, hok, hhead⟩ := h
  refine ⟨?_, natOfDigits_lt l hok⟩
  cases l with
  | nil => exact absurd rfl hnil
  | cons d rest =>
    have hd : 1 ≤ d := by
      by_contra hd
      have : d = 0 := by omega
      exact hne (hhead (by simp [List.headI, this]))
    simpa using le_natOfDigits_of_head d rest hd

theorem natOfDigits_pos_of_canon (l : List Nat) (h : CanonDigits l) (hne : l ≠ [0]) :
    1 ≤ natOfDigits l := by
  have := (canonDigits_bounds l h hne).1
  have hp : 1 ≤ 10 ^ (l.length - 1) := Nat.one_le_pow _ _ (by omega)
  omega

theorem canonDigits_zero_iff (l : List Nat) (h : CanonDigits l) :
    natOfDigits l = 0 ↔ l = [0] := by
  constructor
  · intro hv
    by_contra hne
    have := natOfDigits_pos_of_canon l h hne
    omega
  · intro hl; rw [hl]; rfl

/-- Canonical digit vectors are determined by their value. -/
theorem canonDigits_inj (a b : List Nat) (ha : CanonDigits a) (hb : CanonDigits b)
    (hv : natOfDigits a = natOfDigits b) : a = b := by
  by_cases haz : a = [0]
  · subst haz
    have : natOfDigits b = 0 := by rw [← hv]; rfl
    exact ((canonDigits_zero_iff b hb).mp this).symm
  · by_cases hbz : b = [0]
    · subst hbz
      have : natOfDigits a = 0 := by rw [hv]; rfl
      exact absurd ((canonDigits_zero_iff a ha).mp this) haz
    · have hba := canonDigits_bounds a ha haz
      have hbb := canonDigits_bounds b hb hbz
      have hlen : a.length = b.length := by
        by_contra hne
        rcases Nat.lt_or_ge a.length b.length with h | h
        · have h1 : a.length ≤ b.length - 1 := by omega
          have : 10 ^ a.length ≤ 10 ^ (b.length - 1) :=
            Nat.pow_le_pow_right (by omega) h1
          omega
        · have h2 : b.length < a.length := by omega
          have h1 : b.length ≤ a.length - 1 := by omega
          have : 10 ^ b.length ≤ 10 ^ (a.length - 1) :=
            Nat.pow_le_pow_right (by omega) h1
          omega
      exact natOfDigits_inj a b hlen ha.2.1 hb.2.1 hv

/-! ### `natDigits` is the canonical digit vector of its value -/

theorem natDigitsRev_zero : natDigitsRev 0 = [] := rfl

theorem natDigitsRevF_fuel (f1 : Nat) :
    ∀ f2 n, n ≤ f1 → n ≤ f2 → natDigitsRevF f1 n = natDigitsRevF f2 n := by
  induction f1 with
  | zero =>
    intro f2 n h1 _
    have : n = 0 := by omega
    subst this
    cases f2 <;> rfl
  | succ f ih =>
    intro f2 n h1 h2
    cases n with
    | zero => cases f2 <;> rfl
    | succ m =>
      cases f2 with
      | zero => omega
      | succ g =>
        rw [natDigitsRevF, natDigitsRevF]
        congr 1
        have hdiv : (m + 1) / 10 ≤ m := by
          have := Nat.div_lt_self (Nat.succ_pos m) (by omega : 1 < 10)
          omega
        exact ih g ((m + 1) / 10) (by omega) (by omega)

theorem natDigitsRev_of_pos (n : Nat) (h : 0 < n) :
    natDigitsRev n = n % 10 :: natDigitsRev (n / 10) := by
  cases n with
  | zero => omega
  | succ m =>
    rw [natDigitsRev, natDigitsRevF]
    congr 1
    have hdiv : (m + 1) / 10 ≤ m := by
      have := Nat.div_lt_self (Nat.succ_pos m) (by omega : 1 < 10)
      omega
    rw [natDigitsRev]
    exact natDigitsRevF_fuel m _ _ (by omega) (le_refl _)

theorem valL_natDigitsRev (n : Nat) : valL (natDigitsRev n) = n := by
  induction n using Nat.strong_induction_on with
  | _ n ih =>
    cases n with
    | zero => rw [natDigitsRev_zero]; rfl
    | succ m =>
      rw [natDigitsRev_of_pos _ (Nat.succ_pos m), valL_cons,
        ih ((m + 1) / 10) (Nat.div_lt_self (Nat.succ_pos m) (by omega))]
      omega

theorem digitsOK_natDigitsRev (n : Nat) : DigitsOK (natDigitsRev n) := by
  induction n using Nat.strong_induction_on with
  | _ n ih =>
    cases n with
    | zero => rw [natDigitsRev_zero]; intro d hd; simp at hd
    | succ m =>
      rw [natDigitsRev_of_pos _ (Nat.succ_pos m)]
      intro d hd
      rcases List.mem_cons.mp hd with h | h
      · subst h; exact Nat.mod_lt _ (by omega)
      · exact ih ((m + 1) / 10) (Nat.div_lt_self (Nat.succ_pos m) (by omega)) d h

theorem natDigitsRev_last_ne_zero (n : Nat) (h : 0 < n) :
    ∃ d ds, natDigitsRev n = ds ++ [d] ∧ d ≠ 0 := by
  induction n using Nat.strong_induction_on with
  | _ n ih =>
    rcases Nat.eq_zero_or_pos n with h0 | hpos
    · omega
    rw [natDigitsRev_of_pos n hpos]
    rcases Nat.eq_zero_or_pos (n / 10) with hq | hq
    · have hmod : n % 10 = n := by
        have := Nat.mod_add_div n 10
        omega
      refine ⟨n % 10, [], ?_, by omega⟩
      rw [hq, natDigitsRev_zero]; rfl
    · obtain ⟨d, ds, heq, hd⟩ := ih (n / 10) (Nat.div_lt_self hpos (by omega)) hq
      exact ⟨d, n % 10 :: ds, by rw [heq]; rfl, hd⟩

theorem natOfDigits_natDigits (n : Nat) : natOfDigits (natDigits n) = n := by
  by_cases h : n = 0
  · subst h; rfl
  · rw [natDigits, if_neg h, natOfDigits_reverse, valL_natDigitsRev]

theorem canonDigits_natDigits (n : Nat) : CanonDigits (natDigits n) := by
  by_cases h : n = 0
  · subst h
    refine ⟨by simp [natDigits], ?_, fun _ => rfl⟩
    intro d hd; simp [natDigits] at hd; omega
  · rw [natDigits, if_neg h]
    have hpos : 0 < n := Nat.pos_of_ne_zero h
    have hne : natDigitsRev n ≠ [] := by
      rw [natDigitsRev_of_pos n hpos]; simp
    refine ⟨by simpa using hne, ?_, ?_⟩
    · intro d hd
      exact digitsOK_natDigitsRev n d (List.mem_reverse.mp hd)
    · intro hhead
      exfalso
      obtain ⟨d, ds, heq, hd⟩ := natDigitsRev_last_ne_zero n hpos
      rw [heq] at hhead
      simp [List.headI] at hhead
      exact hd hhead

/-- `natDigits` is the unique canonical digit vector with a given value. -/
theorem eq_natDigits_of_canon (l : List Nat) (h : CanonDigits l) :
    l = natDigits (natOfDigits l) :=
  canonDigits_inj l _ h (canonDigits_natDigits _) (natOfDigits_natDigits _).symm

/-! ### Trimming lemmas -/

theorem dropZerosKeepOne_val (l : List Nat) :
    natOfDigits (dropZerosKeepOne l) = natOfDigits l := by
  induction l with
  | nil => rfl
  | cons x rest ih =>
    cases rest with
    | nil => rfl
    | cons y ys =>
      rw [dropZerosKeepOne]
      by_cases hx : x = 0
      · rw [if_pos hx, ih, hx, natOfDigits_cons 0 (y :: ys)]; simp
      · rw [if_neg hx]

theorem dropZerosKeepOne_canon (l : List Nat) (hok : DigitsOK l) (hne : l ≠ []) :
    CanonDigits (dropZerosKeepOne l) := by
  induction l with
  | nil => exact absurd rfl hne
  | cons x rest ih =>
    cases rest with
    | nil =>
      refine ⟨by simp [dropZerosKeepOne], ?_, ?_⟩
      · intro d hd; simp [dropZerosKeepOne] at hd
        exact hd ▸ hok x (List.mem_cons_self _ _)
      · intro h; simp [dropZerosKeepOne, List.headI] at h
        simp [dropZerosKeepOne, h]
    | cons y ys =>
      rw [dropZerosKeepOne]
      by_cases hx : x = 0
      · rw [if_pos hx]
        exact ih (fun d hd => hok d (List.mem_cons_of_mem _ hd)) (List.cons_ne_nil y ys)
      · rw [if_neg hx]
        exact ⟨by simp, hok, fun h => absurd (by simpa [List.headI] using h) hx⟩

theorem drop_length_takeWhile (p : Nat → Bool) (l : List Nat) :
    l.drop (l.takeWhile p).length = l.dropWhile p := by
  induction l with
  | nil => rfl
  | cons x xs ih =>
    by_cases hp : p x
    · rw [List.takeWhile_cons_of_pos hp, List.dropWhile_cons_of_pos hp,
        List.length_cons, List.drop_succ_cons, ih]
    · rw [List.takeWhile_cons_of_neg (by simpa using hp),
        List.dropWhile_cons_of_neg (by simpa using hp)]
      rfl

theorem headI_dropWhile_zero_ne (l : List Nat) (hne : l.dropWhile (· = 0) ≠ []) :
    (l.dropWhile (· = 0)).headI ≠ 0 := by
  induction l with
  | nil => exact absurd rfl hne
  | cons x xs ih =>
    by_cases hx : x = 0
    · rw [List.dropWhile_cons_of_pos (by simpa using hx)] at hne ⊢
      exact ih hne
    · rw [List.dropWhile_cons_of_neg (by simpa using hx)]
      simpa [List.headI] using hx

theorem trimLeadingZeros_spec (l : List Nat) (neg : Bool) (σ : Nat) (hok : DigitsOK l) :
    trimLeadingZeros ⟨l, neg, σ⟩ =
      if natOfDigits l = 0 then zeroBD
      else ⟨natDigits (natOfDigits l), neg, σ⟩ := by
  rw [trimLeadingZeros]
  simp only
  have hsplit : l.takeWhile (· = 0) ++ l.dropWhile (· = 0) = l :=
    List.takeWhile_append_dropWhile (· = 0) l
  have htw : ∀ x ∈ l.takeWhile (· = 0), x = 0 := by
    intro x hx
    have := List.mem_takeWhile_imp hx
    simpa using this
  have hrep : l.takeWhile (· = 0) = List.replicate (l.takeWhile (· = 0)).length 0 :=
    List.eq_replicate_length.mpr htw
  by_cases hfull : (l.takeWhile (· = 0)).length = l.length
  · have hself : l.takeWhile (· = 0) = l :=
      (List.takeWhile_prefix _).eq_of_length hfull
    have hall : ∀ x ∈ l, x = 0 := by
      intro x hx
      exact htw x (by rw [hself]; exact hx)
    have hz : natOfDigits l = 0 := (natOfDigits_eq_zero_iff l).mpr hall
    rw [if_pos hfull, if_pos hz]; rfl
  · have hdropeq : l.drop (l.takeWhile (· = 0)).length = l.dropWhile (· = 0) :=
      drop_length_takeWhile _ l
    have hval : natOfDigits l = natOfDigits (l.dropWhile (· = 0)) := by
      conv_lhs => rw [← hsplit]
      rw [hrep, natOfDigits_replicate_append]
    have hdwne : l.dropWhile (· = 0) ≠ [] := by
      intro hnil
      apply hfull
      rw [hnil, List.append_nil] at hsplit
      rw [hsplit]
    have hhead := headI_dropWhile_zero_ne l hdwne
    have hcanon : CanonDigits (l.dropWhile (· = 0)) := by
      refine ⟨hdwne, ?_, fun h => absurd h hhead⟩
      intro d hd
      have : d ∈ l := List.dropWhile_subset _ hd
      exact hok d this
    have hvne : natOfDigits l ≠ 0 := by
      rw [hval]
      intro h0
      exact hhead (by
        have := (canonDigits_zero_iff _ hcanon).mp h0
        rw [this]; rfl)
    rw [if_neg hfull, if_neg hvne, hdropeq]
    have hnd := eq_natDigits_of_canon _ hcanon
    rw [← hval] at hnd
    rw [hnd]

theorem trimLeadingZeros_canonical (l : List Nat) (neg : Bool) (σ : Nat)
    (hok : DigitsOK l) : Canonical (trimLeadingZeros ⟨l, neg, σ⟩) := by
  rw [trimLeadingZeros_spec l neg σ hok]
  by_cases hz : natOfDigits l = 0
  · rw [if_pos hz]
    exact ⟨by simp [zeroBD], by intro d hd; simp [zeroBD] at hd; omega, fun _ => rfl⟩
  · rw [if_neg hz]
    obtain ⟨hne, hdok, hhead⟩ := canonDigits_natDigits (natOfDigits l)
    refine ⟨hne, hdok, ?_⟩
    intro h
    have h0 : natDigits (natOfDigits l) = [0] := hhead h
    have := natOfDigits_natDigits (natOfDigits l)
    rw [h0] at this
    exact absurd this.symm (by simpa [natOfDigits_singleton] using hz)

/-! ### Addition and subtraction loop correctness -/

theorem padLeft_spec (a b : List Nat) :
    (padLeft a b).1.length = max a.length b.length ∧
    (padLeft a b).2.length = max a.length b.length ∧
    natOfDigits (padLeft a b).1 = natOfDigits a ∧
    natOfDigits (padLeft a b).2 = natOfDigits b ∧
    (DigitsOK a → DigitsOK (padLeft a b).1) ∧
    (DigitsOK b → DigitsOK (padLeft a b).2) := by
  rw [padLeft]
  rcases Nat.lt_trichotomy a.length b.length with h | h | h
  · rw [if_pos h]
    refine ⟨by simp; omega, by simp; omega, natOfDigits_replicate_append _ _, rfl, ?_, fun h => h⟩
    intro ha d hd
    rcases List.mem_append.mp hd with h1 | h1
    · have := List.eq_of_mem_replicate h1; omega
    · exact ha d h1
  · rw [if_neg (by omega), if_neg (by omega)]
    exact ⟨by simp [← h], by simp [← h], rfl, rfl, fun h => h, fun h => h⟩
  · rw [if_neg (by omega), if_pos h]
    refine ⟨by simp; omega, by simp; omega, rfl, natOfDigits_replicate_append _ _, fun h => h, ?_⟩
    intro hb d hd
    rcases List.mem_append.mp hd with h1 | h1
    · have := List.eq_of_mem_replicate h1; omega
    · exact hb d h1

theorem addWithCarry_valL (xs : List Nat) :
    ∀ ys c, xs.length = ys.length →
      valL (addWithCarry xs ys c) = valL xs + valL ys + c := by
  induction xs with
  | nil =>
    intro ys c hl
    have : ys = [] := by cases ys <;> simp_all
    subst this
    by_cases hc : c = 0 <;> simp [addWithCarry, hc, valL_nil, valL_cons]
  | cons x xs ih =>
    intro ys c hl
    cases ys with
    | nil => simp at hl
    | cons y ys =>
      rw [addWithCarry, valL_cons, valL_cons, valL_cons,
        ih ys ((x + y + c) / 10) (by simpa using hl)]
      omega

theorem addWithCarry_digitsOK (xs : List Nat) :
    ∀ ys c, DigitsOK xs → DigitsOK ys → c ≤ 1 →
      DigitsOK (addWithCarry xs ys c) := by
  induction xs with
  | nil =>
    intro ys c _ _ hc d hd
    cases ys with
    | nil =>
      by_cases h : c = 0 <;> simp [addWithCarry, h] at hd <;> omega
    | cons y ys =>
      by_cases h : c = 0 <;> simp [addWithCarry, h] at hd <;> omega
  | cons x xs ih =>
    intro ys c hx hy hc
    cases ys with
    | nil =>
      intro d hd
      by_cases h : c = 0 <;> simp [addWithCarry, h] at hd <;> omega
    | cons y ys =>
      rw [addWithCarry]
      intro d hd
      rcases List.mem_cons.mp hd with h1 | h1
      · subst h1; exact Nat.mod_lt _ (by omega)
      · have hxd : x < 10 := hx x (List.mem_cons_self _ _)
        have hyd : y < 10 := hy y (List.mem_cons_self _ _)
        refine ih ys ((x + y + c) / 10)
          (fun d hd => hx d (List.mem_cons_of_mem _ hd))
          (fun d hd => hy d (List.mem_cons_of_mem _ hd)) ?_ d h1
        omega

theorem subWithBorrow_valL (xs : List Nat) :
    ∀ ys b, xs.length = ys.length → DigitsOK xs → DigitsOK ys → b ≤ 1 → valL ys + b ≤ valL xs →
      valL (subWithBorrow xs ys b) + valL ys + b = valL xs := by
  induction xs with
  | nil =>
    intro ys b hl _ _ _ hle
    have : ys = [] := by cases ys <;> simp_all
    subst this
    have h1 : subWithBorrow ([] : List Nat) [] b = [] := rfl
    rw [h1, valL_nil] at *
    omega
  | cons x xs ih =>
    intro ys b hl hxs hys hb hle
    cases ys with
    | nil => simp at hl
    | cons y ys =>
      have hx : x < 10 := hxs x (List.mem_cons_self _ _)
      have hy : y < 10 := hys y (List.mem_cons_self _ _)
      have hxstail : DigitsOK xs := fun d hd => hxs d (List.mem_cons_of_mem _ hd)
      have hystail : DigitsOK ys := fun d hd => hys d (List.mem_cons_of_mem _ hd)
      rw [valL_cons, valL_cons] at hle ⊢
      rw [subWithBorrow]
      by_cases hlt : x < y + b
      · rw [if_pos hlt]
        have hrec : valL ys + 1 ≤ valL xs := by omega
        have := ih ys 1 (by simpa using hl) hxstail hystail (le_refl 1) hrec
        rw [valL_cons]
        omega
      · rw [if_neg hlt]
        have hrec : valL ys + 0 ≤ valL xs := by omega
        have := ih ys 0 (by simpa using hl) hxstail hystail (by omega) hrec
        rw [valL_cons]
        omega

theorem subWithBorrow_digitsOK (xs : List Nat) :
    ∀ ys b, DigitsOK xs → DigitsOK (subWithBorrow xs ys b) := by
  induction xs with
  | nil => intro ys b _ d hd; cases ys <;> simp [subWithBorrow] at hd
  | cons x xs ih =>
    intro ys b hx
    cases ys with
    | nil => intro d hd; simp [subWithBorrow] at hd
    | cons y ys =>
      rw [subWithBorrow]
      have hxd : x < 10 := hx x (List.mem_cons_self _ _)
      have htail : DigitsOK xs := fun d hd => hx d (List.mem_cons_of_mem _ hd)
      by_cases hlt : x < y + b
      · rw [if_pos hlt]
        intro d hd
        rcases List.mem_cons.mp hd with h1 | h1
        · omega
        · exact ih ys 1 htail d h1
      · rw [if_neg hlt]
        intro d hd
        rcases List.mem_cons.mp hd with h1 | h1
        · omega
        · exact ih ys 0 htail d h1

theorem subWithBorrow_length (xs : List Nat) :
    ∀ ys b, xs.length = ys.length → (subWithBorrow xs ys b).length = xs.length := by
  induction xs with
  | nil => intro ys b hl; cases ys <;> simp_all [subWithBorrow]
  | cons x xs ih =>
    intro ys b hl
    cases ys with
    | nil => simp at hl
    | cons y ys =>
      rw [subWithBorrow]
      by_cases hlt : x < y + b
      · rw [if_pos hlt]; simpa using ih ys 1 (by simpa using hl)
      · rw [if_neg hlt]; simpa using ih ys 0 (by simpa using hl)

theorem addVectors_spec (a b : List Nat) (ha : DigitsOK a) (hb : DigitsOK b) :
    natOfDigits (addVectors a b) = natOfDigits a + natOfDigits b ∧
    DigitsOK (addVectors a b) := by
  obtain ⟨hl1, hl2, hv1, hv2, hok1, hok2⟩ := padLeft_spec a b
  rw [addVectors]
  constructor
  · rw [natOfDigits_reverse,
      addWithCarry_valL _ _ 0 (by simp [hl1, hl2]),
      valL_reverse, valL_reverse, hv1, hv2]
    omega
  · intro d hd
    refine addWithCarry_digitsOK _ _ 0 ?_ ?_ (by omega) d (List.mem_reverse.mp hd)
    · intro e he; exact hok1 ha e (List.mem_reverse.mp he)
    · intro e he; exact hok2 hb e (List.mem_reverse.mp he)

theorem subtractVectors_spec (a b : List Nat) (ha : DigitsOK a) (hb : DigitsOK b)
    (hne : a ≠ []) (hle : natOfDigits b ≤ natOfDigits a) :
    natOfDigits (subtractVectors a b) = natOfDigits a - natOfDigits b ∧
    CanonDigits (subtractVectors a b) := by
  obtain ⟨hl1, hl2, hv1, hv2, hok1, hok2⟩ := padLeft_spec a b
  rw [subtractVectors]
  have hlrev : (padLeft a b).1.reverse.length = (padLeft a b).2.reverse.length := by
    simp [hl1, hl2]
  have hlerev : valL (padLeft a b).2.reverse + 0 ≤ valL (padLeft a b).1.reverse := by
    rw [valL_reverse, valL_reverse, hv1, hv2]; omega
  have hokrev1 : DigitsOK (padLeft a b).1.reverse := by
    intro e he; exact hok1 ha e (List.mem_reverse.mp he)
  have hokrev2 : DigitsOK (padLeft a b).2.reverse := by
    intro e he; exact hok2 hb e (List.mem_reverse.mp he)
  have hval := subWithBorrow_valL _ _ 0 hlrev hokrev1 hokrev2 (by omega) hlerev
  rw [valL_reverse, valL_reverse, hv1, hv2] at hval
  have hokres : DigitsOK (subWithBorrow (padLeft a b).1.reverse (padLeft a b).2.reverse 0) := by
    apply subWithBorrow_digitsOK
    intro e he; exact hok1 ha e (List.mem_reverse.mp he)
  have hvalres : natOfDigits (subWithBorrow (padLeft a b).1.reverse (padLeft a b).2.reverse 0).reverse
      = natOfDigits a - natOfDigits b := by
    rw [natOfDigits_reverse]; omega
  have hlen : (subWithBorrow (padLeft a b).1.reverse (padLeft a b).2.reverse 0).length
      = (padLeft a b).1.length := by
    rw [subWithBorrow_length _ _ _ hlrev, List.length_reverse]
  have hresne : (subWithBorrow (padLeft a b).1.reverse (padLeft a b).2.reverse 0).reverse ≠ [] := by
    intro hnil
    have : (subWithBorrow (padLeft a b).1.reverse (padLeft a b).2.reverse 0).length = 0 := by
      have := congrArg List.length hnil
      simpa using this
    rw [hlen, hl1] at this
    have : a.length = 0 := by omega
    exact hne (List.length_eq_zero.mp this)
  have hokrev : DigitsOK (subWithBorrow (padLeft a b).1.reverse (padLeft a b).2.reverse 0).reverse := by
    intro d hd; exact hokres d (List.mem_reverse.mp hd)
  exact ⟨by rw [dropZerosKeepOne_val, hvalres],
    dropZerosKeepOne_canon _ hokrev hresne⟩

/-! ### `compareAbs` agrees with the value order on canonical vectors -/

theorem lexCmp_spec (a : List Nat) :
    ∀ b, a.length = b.length → DigitsOK a → DigitsOK b →
      lexCmp a b = (if natOfDigits a < natOfDigits b then -1
        else if natOfDigits a = natOfDigits b then 0 else 1) := by
  induction a with
  | nil =>
    intro b hl _ _
    have : b = [] := by cases b <;> simp_all
    subst this
    simp [lexCmp, natOfDigits_nil]
  | cons x xs ih =>
    intro b hl ha hb
    cases b with
    | nil => simp at hl
    | cons y ys =>
      have hlen : xs.length = ys.length := by simpa using hl
      have hxs := natOfDigits_lt xs (fun d hd => ha d (List.mem_cons_of_mem _ hd))
      have hys := natOfDigits_lt ys (fun d hd => hb d (List.mem_cons_of_mem _ hd))
      rw [lexCmp, natOfDigits_cons, natOfDigits_cons, hlen]
      rw [hlen] at hxs
      by_cases hxy : x = y
      · subst hxy
        rw [if_neg (by omega)]
        rw [ih ys hlen (fun d hd => ha d (List.mem_cons_of_mem _ hd))
          (fun d hd => hb d (List.mem_cons_of_mem _ hd))]
        by_cases h1 : natOfDigits xs < natOfDigits ys
        · rw [if_pos h1, if_pos (by
            have : 0 < 10 ^ ys.length := Nat.pos_pow_of_pos _ (by omega)
            omega)]
        · rw [if_neg h1]
          by_cases h2 : natOfDigits xs = natOfDigits ys
          · rw [if_pos h2, if_neg (by omega), if_pos (by omega)]
          · rw [if_neg h2, if_neg (by omega), if_neg (by omega)]
      · rw [if_pos hxy]
        by_cases hlt : x < y
        · rw [if_pos hlt, if_pos ?_]
          have : (x + 1) * 10 ^ ys.length ≤ y * 10 ^ ys.length :=
            Nat.mul_le_mul_right _ (by omega)
          nlinarith
        · have hgt : y < x := by omega
          rw [if_neg hlt]
          have hge : y * 10 ^ ys.length + natOfDigits ys < x * 10 ^ ys.length + natOfDigits xs := by
            have : (y + 1) * 10 ^ ys.length ≤ x * 10 ^ ys.length :=
              Nat.mul_le_mul_right _ (by omega)
            nlinarith
          rw [if_neg (by omega), if_neg (by omega)]

theorem compareAbs_spec (a b : List Nat) (ha : CanonDigits a) (hb : CanonDigits b) :
    compareAbs a b = (if natOfDigits a < natOfDigits b then -1
      else if natOfDigits a = natOfDigits b then 0 else 1) := by
  rw [compareAbs]
  by_cases hl : a.length = b.length
  · rw [if_neg (by omega)]
    exact lexCmp_spec a b hl ha.2.1 hb.2.1
  · rw [if_pos hl]
    rcases Nat.lt_or_ge a.length b.length with h | h
    · have hbz : b ≠ [0] := by
        intro hb0
        have h1 : b.length = 1 := by rw [hb0]; rfl
        have h2 : 0 < a.length := List.length_pos.mpr ha.1
        omega
      have hbv := (canonDigits_bounds b hb hbz).1
      have hav := natOfDigits_lt a ha.2.1
      have hpow : 10 ^ a.length ≤ 10 ^ (b.length - 1) :=
        Nat.pow_le_pow_right (by omega) (by omega)
      rw [if_pos (by omega), if_pos (by omega)]
    · have h2 : b.length < a.length := by omega
      have haz : a ≠ [0] := by
        intro ha0
        have h3 : a.length = 1 := by rw [ha0]; rfl
        have h4 : 0 < b.length := List.length_pos.mpr hb.1
        omega
      have hav := (canonDigits_bounds a ha haz).1
      have hbv := natOfDigits_lt b hb.2.1
      have hpow : 10 ^ b.length ≤ 10 ^ (a.length - 1) :=
        Nat.pow_le_pow_right (by omega) (by omega)
      rw [if_neg (by omega), if_neg (by omega), if_neg (by omega)]

/-! ### BigDec-level invariants -/

theorem canonical_digits (x : BigDec) (h : Canonical x) : CanonDigits x.digits :=
  ⟨h.1, h.2.1, fun hh => by rw [h.2.2 hh]; rfl⟩

theorem zeroBD_canonical : Canonical zeroBD :=
  ⟨by simp [zeroBD], by intro d hd; simp [zeroBD] at hd; omega, fun _ => rfl⟩

theorem isZero_iff (x : BigDec) : isZero x = true ↔ x.digits = [0] := by
  cases x with
  | mk digits neg σ =>
    cases digits with
    | nil => simp [isZero]
    | cons d rest =>
      cases rest with
      | nil => simp [isZero, List.headI]
      | cons e es => simp [isZero]

theorem canonical_isZero_iff (x : BigDec) (h : Canonical x) :
    isZero x = true ↔ x = zeroBD := by
  rw [isZero_iff]
  constructor
  · intro hd
    exact h.2.2 (by rw [hd]; rfl)
  · intro hx; rw [hx]; rfl

theorem canonical_val_pos (x : BigDec) (h : Canonical x) (hz : isZero x = false) :
    1 ≤ natOfDigits x.digits := by
  apply natOfDigits_pos_of_canon x.digits (canonical_digits x h)
  intro h0
  rw [(isZero_iff x).mpr h0] at hz
  simp at hz

theorem valQ_zeroBD : valQ zeroBD = 0 := by
  simp [valQ, zeroBD, natOfDigits_singleton]

theorem valQ_false (x : BigDec) (hx : x.negative = false) :
    valQ x = (natOfDigits x.digits : ℚ) / 10 ^ x.scale := by
  simp [valQ, hx]

theorem valQ_true (x : BigDec) (hx : x.negative = true) :
    valQ x = -((natOfDigits x.digits : ℚ) / 10 ^ x.scale) := by
  simp [valQ, hx]; ring

theorem headI_append_left (l t : List Nat) (h : l ≠ []) :
    (l ++ t).headI = l.headI := by
  cases l with
  | nil => exact absurd rfl h
  | cons x xs => rfl

theorem alignScales_spec (a b : BigDec) :
    (alignScales a b).1.negative = a.negative ∧
    (alignScales a b).2.negative = b.negative ∧
    (alignScales a b).1.scale = max a.scale b.scale ∧
    (alignScales a b).2.scale = max a.scale b.scale ∧
    natOfDigits (alignScales a b).1.digits
      = natOfDigits a.digits * 10 ^ (max a.scale b.scale - a.scale) ∧
    natOfDigits (alignScales a b).2.digits
      = natOfDigits b.digits * 10 ^ (max a.scale b.scale - b.scale) ∧
    (alignScales a b).1.digits.length
      = a.digits.length + (max a.scale b.scale - a.scale) ∧
    (alignScales a b).2.digits.length
      = b.digits.length + (max a.scale b.scale - b.scale) ∧
    (DigitsOK a.digits → DigitsOK (alignScales a b).1.digits) ∧
    (DigitsOK b.digits → DigitsOK (alignScales a b).2.digits) ∧
    (a.digits ≠ [] → (alignScales a b).1.digits.headI = a.digits.headI) ∧
    (b.digits ≠ [] → (alignScales a b).2.digits.headI = b.digits.headI) := by
  rw [alignScales]
  have hrep : ∀ k, DigitsOK (List.replicate k (0 : Nat)) := by
    intro k d hd
    have := List.eq_of_mem_replicate hd
    omega
  have happ : ∀ (l : List Nat) k, DigitsOK l → DigitsOK (l ++ List.replicate k 0) := by
    intro l k hl d hd
    rcases List.mem_append.mp hd with h1 | h1
    · exact hl d h1
    · exact hrep k d h1
  by_cases h1 : a.scale = b.scale
  · rw [if_pos h1]
    refine ⟨rfl, rfl, by simp [← h1], by simp [← h1], ?_, ?_, by simp [h1], by simp [h1],
      fun h => h, fun h => h, fun _ => rfl, fun _ => rfl⟩
    · rw [h1, Nat.max_self, Nat.sub_self, pow_zero, Nat.mul_one]
    · rw [h1, Nat.max_self, Nat.sub_self, pow_zero, Nat.mul_one]
  · rw [if_neg h1]
    by_cases h2 : a.scale < b.scale
    · rw [if_pos h2]
      have hmax : max a.scale b.scale = b.scale := by omega
      refine ⟨rfl, rfl, by simp [hmax], by simp [hmax], ?_, ?_, ?_, ?_,
        fun h => happ _ _ h, fun h => h, ?_, fun _ => rfl⟩
      · simp only [hmax]
        exact natOfDigits_append_replicate _ _
      · simp [hmax]
      · simp [hmax]
      · simp [hmax, Nat.sub_self]
      · intro h; exact headI_append_left _ _ h
    · rw [if_neg h2]
      have hmax : max a.scale b.scale = a.scale := by omega
      refine ⟨rfl, rfl, by simp [hmax], by simp [hmax], ?_, ?_, ?_, ?_,
        fun h => h, fun h => happ _ _ h, fun _ => rfl, ?_⟩
      · simp [hmax, Nat.sub_self]
      · simp only [hmax]
        exact natOfDigits_append_replicate _ _
      · simp [hmax, Nat.sub_self]
      · simp [hmax]
      · intro h; exact headI_append_left _ _ h

theorem qScaleEq (A s m : Nat) (h : s ≤ m) :
    ((A * 10 ^ (m - s) : Nat) : ℚ) / 10 ^ m = (A : ℚ) / 10 ^ s := by
  have hpow : (10 : ℚ) ^ m = 10 ^ s * 10 ^ (m - s) := by
    rw [← pow_add]
    congr 1
    omega
  push_cast
  rw [hpow]
  have h1 : ((10 : ℚ) ^ (m - s)) ≠ 0 := by positivity
  have h2 : ((10 : ℚ) ^ s) ≠ 0 := by positivity
  field_simp
  ring

/-- `alignScales` keeps both denoted values. -/
theorem alignScales_valQ (a b : BigDec) :
    valQ (alignScales a b).1 = valQ a ∧ valQ (alignScales a b).2 = valQ b := by
  obtain ⟨hn1, hn2, hs1, hs2, hv1, hv2, _, _, _, _, _, _⟩ := alignScales_spec a b
  have key : ∀ (x : BigDec) (m : Nat), x.scale ≤ m →
      ∀ y : BigDec, y.negative = x.negative → y.scale = m →
        natOfDigits y.digits = natOfDigits x.digits * 10 ^ (m - x.scale) →
        valQ y = valQ x := by
    intro x m hm y hyn hys hyv
    rw [valQ, valQ, hyn, hys, hyv, mul_div_assoc, mul_div_assoc,
      qScaleEq _ _ _ hm]
  constructor
  · exact key a _ (Nat.le_max_left _ _) _ hn1 hs1 hv1
  · exact key b _ (Nat.le_max_right _ _) _ hn2 hs2 hv2

/-! ### Subtraction of aligned non-negative canonical values -/

theorem trimBD_zero : trimLeadingZeros ⟨[0], false, 0⟩ = zeroBD := rfl

theorem sub_nonneg_spec (x y : BigDec) (hx : Canonical x) (hy : Canonical y)
    (hxn : x.negative = false) (hyn : y.negative = false)
    (hxs : x.scale = 0) (hys : y.scale = 0)
    (hle : natOfDigits y.digits ≤ natOfDigits x.digits) :
    sub x y = ⟨natDigits (natOfDigits x.digits - natOfDigits y.digits), false, 0⟩ := by
  have halign : alignScales x y = (x, y) := by
    rw [alignScales, if_pos (by rw [hxs, hys])]
  rw [sub, addOrSubtract, halign]
  simp only [hxn, hyn, Bool.not_false, Bool.false_eq_true, if_false]
  have hcmp := compareAbs_spec x.digits y.digits (canonical_digits x hx) (canonical_digits y hy)
  by_cases heq : natOfDigits x.digits = natOfDigits y.digits
  · have hc0 : compareAbs x.digits y.digits = 0 := by
      rw [hcmp, if_neg (by omega), if_pos heq]
    rw [hc0, if_pos rfl, trimBD_zero, heq, Nat.sub_self]
    rfl
  · have hlt : natOfDigits y.digits < natOfDigits x.digits := by omega
    have hc1 : compareAbs x.digits y.digits = 1 := by
      rw [hcmp, if_neg (by omega), if_neg heq]
    rw [hc1, if_neg (by norm_num), if_pos (by norm_num), hxs]
    obtain ⟨hsv, hsc⟩ := subtractVectors_spec x.digits y.digits hx.2.1 hy.2.1 hx.1 hle
    rw [trimLeadingZeros_spec _ _ _ hsc.2.1]
    rw [hsv, if_neg (by omega)]

/-! ### `multiply` by a single digit -/

theorem getD_rep_cons (k c : Nat) (out : List Nat) :
    (List.replicate k (0 : Nat) ++ c :: out).getD k 0 = c := by
  induction k with
  | zero => rfl
  | succ n ih => simpa [List.replicate_succ] using ih

theorem set_rep_cons (k c c' : Nat) (out : List Nat) :
    (List.replicate k (0 : Nat) ++ c :: out).set k c' =
      List.replicate k 0 ++ c' :: out := by
  induction k with
  | zero => rfl
  | succ n ih => simpa [List.replicate_succ] using ih

theorem valL_mulDigitRev (xs : List Nat) (d : Nat) :
    ∀ c, valL (mulDigitRev xs d c) = valL xs * d + c := by
  induction xs with
  | nil => intro c; simp [mulDigitRev, valL_cons, valL_nil]
  | cons x xs ih =>
    intro c
    rw [mulDigitRev, valL_cons, valL_cons, ih]
    have := Nat.mod_add_div (x * d + c) 10
    ring_nf
    nlinarith [Nat.mod_add_div (x * d + c) 10]

theorem digitsOK_mulDigitRev (xs : List Nat) (d : Nat) (hxs : DigitsOK xs)
    (hd : d ≤ 9) : ∀ c, c ≤ 9 → DigitsOK (mulDigitRev xs d c) := by
  induction xs with
  | nil =>
    intro c hc e he
    simp [mulDigitRev] at he
    omega
  | cons x xs ih =>
    intro c hc e he
    have hx : x < 10 := hxs x (List.mem_cons_self _ _)
    rw [mulDigitRev] at he
    rcases List.mem_cons.mp he with h1 | h1
    · subst h1; exact Nat.mod_lt _ (by omega)
    · refine ih (fun a ha => hxs a (List.mem_cons_of_mem _ ha)) _ ?_ e h1
      have : x * d + c ≤ 9 * 9 + 9 := by nlinarith
      omega

theorem mulDigitRev_ne_nil (xs : List Nat) (d c : Nat) :
    mulDigitRev xs d c ≠ [] := by
  cases xs with
  | nil => simp [mulDigitRev]
  | cons x xs => simp [mulDigitRev]

/-- The outer multiplication loop, specialized to a single-digit
multiplier, is the standard multiply-with-carry sweep. -/
theorem mulOuterGo_single (ad : List Nat) (δ : Nat) :
    ∀ i c out, i ≤ ad.length →
      mulOuterGo ad [δ] i (List.replicate i 0 ++ c :: out) =
        (mulDigitRev ((ad.take i).reverse) δ c).reverse ++ out := by
  intro i
  induction i with
  | zero =>
    intro c out _
    rfl
  | succ i ih =>
    intro c out hi
    have hilt : i < ad.length := by omega
    rw [mulOuterGo]
    simp only [List.length_singleton]
    have hinner : mulInnerGo (ad.getD i 0) [δ] i 1 (List.replicate (i + 1) 0 ++ c :: out) 0 =
        ((List.replicate (i + 1) 0 ++ ((ad.getD i 0) * δ + c) % 10 :: out),
          ((ad.getD i 0) * δ + c) / 10) := by
      rw [mulInnerGo]
      have hg : ([δ] : List Nat).getD 0 0 = δ := rfl
      rw [hg, getD_rep_cons, set_rep_cons, mulInnerGo]
      norm_num
    rw [hinner]
    simp only
    have hreads : (List.replicate (i + 1) 0 ++ (ad.getD i 0 * δ + c) % 10 :: out).getD i 0 = 0 := by
      rw [List.replicate_succ', List.append_assoc, List.singleton_append, getD_rep_cons]
    have hsets : (List.replicate (i + 1) 0 ++ (ad.getD i 0 * δ + c) % 10 :: out).set i
        (0 + (ad.getD i 0 * δ + c) / 10) =
        List.replicate i 0 ++ ((ad.getD i 0 * δ + c) / 10) :: ((ad.getD i 0 * δ + c) % 10 :: out) := by
      rw [List.replicate_succ', List.append_assoc, List.singleton_append, set_rep_cons]
      norm_num
    rw [hreads, hsets, ih _ _ (by omega)]
    have htake : ad.take (i + 1) = ad.take i ++ [ad.getD i 0] := by
      rw [List.getD_eq_getElem?_getD]
      rw [List.take_succ]
      congr 1
      cases hh : ad[i]? with
      | none =>
        rw [List.getElem?_eq_none_iff] at hh
        omega
      | some v => simp
    rw [htake]
    rw [List.reverse_append]
    simp only [List.reverse_singleton, List.singleton_append]
    rw [mulDigitRev]
    rw [List.reverse_cons, List.append_assoc]
    rfl

/-- `multiply b (BigDecimal(d))` for a scale-0 non-negative canonical
`b` and a digit `1 ≤ d ≤ 9`. -/
theorem multiply_digit_spec (b : BigDec) (δ : Nat) (hb : Canonical b)
    (hbz : isZero b = false) (hbn : b.negative = false) (hbs : b.scale = 0)
    (hδ1 : 1 ≤ δ) (hδ9 : δ ≤ 9) :
    multiply b (ofInt δ) = ⟨natDigits (natOfDigits b.digits * δ), false, 0⟩ := by
  have hofd : natDigits δ = [δ] := by
    rw [natDigits, if_neg (by omega), natDigitsRev_of_pos _ (by omega)]
    have h10 : δ / 10 = 0 := by omega
    have hm : δ % 10 = δ := by omega
    rw [h10, natDigitsRev_zero, hm]
    rfl
  have hneg : decide ((δ : Int) < 0) = false := by simp
  have hof : ofInt δ = ⟨[δ], false, 0⟩ := by
    rw [ofInt, Int.natAbs_ofNat, hofd, hneg]
  rw [hof, multiply]
  have hz2 : isZero ⟨[δ], false, 0⟩ = false := by
    rw [Bool.eq_false_iff]
    intro h
    have h1 := (isZero_iff _).mp h
    simp only at h1
    simp at h1
    omega
  rw [if_neg (by rw [hbz, hz2]; simp)]
  have houter := mulOuterGo_single b.digits δ b.digits.length 0 [] (le_refl _)
  rw [List.take_length] at houter
  have hrepl : List.replicate (b.digits.length + 1) (0 : Nat) =
      List.replicate b.digits.length 0 ++ 0 :: [] := by
    rw [List.replicate_succ']
  simp only [List.length_singleton]
  rw [hrepl, houter]
  simp only [List.append_nil]
  have hvalmul : natOfDigits (mulDigitRev b.digits.reverse δ 0).reverse =
      natOfDigits b.digits * δ := by
    rw [natOfDigits_reverse, valL_mulDigitRev, valL_reverse]
    omega
  have hokmul : DigitsOK (mulDigitRev b.digits.reverse δ 0).reverse := by
    intro d hd
    refine digitsOK_mulDigitRev b.digits.reverse δ ?_ hδ9 0 (by omega) d (List.mem_reverse.mp hd)
    intro e he
    exact hb.2.1 e (List.mem_reverse.mp he)
  have hnemul : (mulDigitRev b.digits.reverse δ 0).reverse ≠ [] := by
    intro h
    have := mulDigitRev_ne_nil b.digits.reverse δ 0
    exact this (by simpa using congrArg List.reverse h)
  have hcanon := dropZerosKeepOne_canon _ hokmul hnemul
  have hval : natOfDigits (dropZerosKeepOne (mulDigitRev b.digits.reverse δ 0).reverse) =
      natOfDigits b.digits * δ := by
    rw [dropZerosKeepOne_val, hvalmul]
  have hvpos : 1 ≤ natOfDigits b.digits * δ := by
    have := canonical_val_pos b hb hbz
    exact Nat.one_le_iff_ne_zero.mpr (by positivity)
  have hdigits : dropZerosKeepOne (mulDigitRev b.digits.reverse δ 0).reverse =
      natDigits (natOfDigits b.digits * δ) := by
    rw [eq_natDigits_of_canon _ hcanon, hval]
  rw [hdigits]
  have hnz : ∀ (ng : Bool) (sc : Nat),
      isZero ⟨natDigits (natOfDigits b.digits * δ), ng, sc⟩ = false := by
    intro ng sc
    rw [Bool.eq_false_iff]
    intro h0
    have h1 := (isZero_iff _).mp h0
    simp only at h1
    have := natOfDigits_natDigits (natOfDigits b.digits * δ)
    rw [h1, natOfDigits_singleton] at this
    omega
  rw [if_neg (by rw [hnz]; simp)]
  simp [hbs, hbn]

/-! ### Long-division loop correctness -/

theorem canonical_natDigits (n : Nat) : Canonical ⟨natDigits n, false, 0⟩ := by
  obtain ⟨hne, hok, hhead⟩ := canonDigits_natDigits n
  refine ⟨hne, hok, ?_⟩
  intro h
  have h0 : natDigits n = [0] := hhead h
  rw [zeroBD, ← h0]

theorem natDigits_zero_iff (n : Nat) : natDigits n = [0] ↔ n = 0 := by
  constructor
  · intro h
    have := natOfDigits_natDigits n
    rw [h, natOfDigits_singleton] at this
    omega
  · intro h; rw [h]; rfl

theorem qDigitSearch_spec (b : BigDec) (hb : Canonical b) (hbz : isZero b = false)
    (hbn : b.negative = false) (hbs : b.scale = 0) (R : Nat) :
    ∀ dd : Nat, dd ≤ 9 → R < (dd + 1) * natOfDigits b.digits →
      qDigitSearch b ⟨natDigits R, false, 0⟩ dd =
        (R / natOfDigits b.digits,
          ⟨natDigits (R % natOfDigits b.digits), false, 0⟩) := by
  have hB : 1 ≤ natOfDigits b.digits := canonical_val_pos b hb hbz
  intro dd
  induction dd with
  | zero =>
    intro _ hR
    rw [qDigitSearch]
    have h1 : R / natOfDigits b.digits = 0 := Nat.div_eq_of_lt (by omega)
    have h2 : R % natOfDigits b.digits = R := Nat.mod_eq_of_lt (by omega)
    rw [h1, h2]
  | succ dd ih =>
    intro hdd hR
    simp only [qDigitSearch]
    have hcast : ((dd : Int) + 1) = ((dd + 1 : Nat) : Int) := by push_cast; ring
    rw [hcast]
    rw [multiply_digit_spec b (dd + 1) hb hbz hbn hbs (by omega) (by omega)]
    have hcmp := compareAbs_spec (natDigits (natOfDigits b.digits * (dd + 1))) (natDigits R)
      (canonDigits_natDigits _) (canonDigits_natDigits _)
    rw [natOfDigits_natDigits, natOfDigits_natDigits] at hcmp
    by_cases hle : natOfDigits b.digits * (dd + 1) ≤ R
    · have hq : R / natOfDigits b.digits = dd + 1 := by
        have h1 : (dd + 1) * natOfDigits b.digits ≤ R := by
          have : (dd + 1) * natOfDigits b.digits = natOfDigits b.digits * (dd + 1) := by ring
          omega
        exact Nat.div_eq_of_lt_le h1 hR
      have hcmple : compareAbs (natDigits (natOfDigits b.digits * (dd + 1))) (natDigits R) ≤ 0 := by
        rw [hcmp]
        by_cases h1 : natOfDigits b.digits * (dd + 1) < R
        · rw [if_pos h1]; omega
        · rw [if_neg h1, if_pos (by omega)]
      rw [if_pos hcmple]
      rw [sub_nonneg_spec _ _ (canonical_natDigits R)
        (canonical_natDigits (natOfDigits b.digits * (dd + 1))) rfl rfl rfl rfl
        (by rw [natOfDigits_natDigits, natOfDigits_natDigits]; exact hle)]
      rw [natOfDigits_natDigits, natOfDigits_natDigits]
      have hmod : R - natOfDigits b.digits * (dd + 1) = R % natOfDigits b.digits := by
        have hdm := Nat.div_add_mod R (natOfDigits b.digits)
        rw [hq] at hdm
        have : natOfDigits b.digits * (dd + 1) + R % natOfDigits b.digits = R := hdm
        omega
      rw [hq, hmod]
    · have hcmpgt : ¬ compareAbs (natDigits (natOfDigits b.digits * (dd + 1))) (natDigits R) ≤ 0 := by
        rw [hcmp, if_neg (by omega), if_neg (by omega)]
        omega
      rw [if_neg hcmpgt]
      refine ih (by omega) ?_
      have hcomm : (dd + 1) * natOfDigits b.digits = natOfDigits b.digits * (dd + 1) := by ring
      omega

theorem divStep_spec (b : BigDec) (hb : Canonical b) (hbz : isZero b = false)
    (hbn : b.negative = false) (hbs : b.scale = 0)
    (r d : Nat) (acc : List Nat) (hr : r < natOfDigits b.digits) (hd : d ≤ 9) :
    divStep b (⟨natDigits r, false, 0⟩, acc) d =
      (⟨natDigits ((10 * r + d) % natOfDigits b.digits), false, 0⟩,
        acc ++ [(10 * r + d) / natOfDigits b.digits]) := by
  have hB : 1 ≤ natOfDigits b.digits := canonical_val_pos b hb hbz
  simp only [divStep]
  have hcur1 : (if !(isZero ⟨natDigits r, false, 0⟩) then
      ({ (⟨natDigits r, false, 0⟩ : BigDec) with digits := natDigits r ++ [d] } : BigDec)
      else { (⟨natDigits r, false, 0⟩ : BigDec) with digits := [d] }) =
      (⟨(if r = 0 then [d] else natDigits r ++ [d]), false, 0⟩ : BigDec) := by
    by_cases hr0 : r = 0
    · subst hr0
      rfl
    · have hz : isZero ⟨natDigits r, false, 0⟩ = false := by
        rw [Bool.eq_false_iff]
        intro h
        have := (isZero_iff _).mp h
        simp only at this
        exact hr0 ((natDigits_zero_iff r).mp this)
      rw [hz]
      simp [hr0]
  rw [hcur1]
  have hvd : natOfDigits (if r = 0 then [d] else natDigits r ++ [d]) = 10 * r + d := by
    by_cases hr0 : r = 0
    · rw [if_pos hr0, natOfDigits_singleton, hr0]
      omega
    · rw [if_neg hr0, natOfDigits_append, natOfDigits_natDigits,
        natOfDigits_singleton]
      simp
      ring
  have hokd : DigitsOK (if r = 0 then [d] else natDigits r ++ [d]) := by
    by_cases hr0 : r = 0
    · rw [if_pos hr0]; intro e he; simp at he; omega
    · rw [if_neg hr0]
      intro e he
      rcases List.mem_append.mp he with h1 | h1
      · exact (canonDigits_natDigits r).2.1 e h1
      · simp at h1; omega
  rw [trimLeadingZeros_spec _ _ _ hokd, hvd]
  have hcur2 : ({ (if 10 * r + d = 0 then zeroBD
      else ⟨natDigits (10 * r + d), false, 0⟩ : BigDec) with scale := 0 } : BigDec) =
      ⟨natDigits (10 * r + d), false, 0⟩ := by
    by_cases h0 : 10 * r + d = 0
    · rw [if_pos h0, h0]
      rfl
    · rw [if_neg h0]
  rw [hcur2]
  rw [qDigitSearch_spec b hb hbz hbn hbs (10 * r + d) 9 (le_refl 9) (by omega)]

theorem divFold_spec (b : BigDec) (hb : Canonical b) (hbz : isZero b = false)
    (hbn : b.negative = false) (hbs : b.scale = 0) (ds : List Nat) :
    ∀ (r : Nat) (acc : List Nat), DigitsOK ds → r < natOfDigits b.digits →
      ∃ qs : List Nat,
        ds.foldl (divStep b) (⟨natDigits r, false, 0⟩, acc) =
          (⟨natDigits ((r * 10 ^ ds.length + natOfDigits ds) % natOfDigits b.digits),
            false, 0⟩, acc ++ qs) ∧
        natOfDigits qs = (r * 10 ^ ds.length + natOfDigits ds) / natOfDigits b.digits ∧
        qs.length = ds.length ∧ DigitsOK qs := by
  have hB : 1 ≤ natOfDigits b.digits := canonical_val_pos b hb hbz
  induction ds with
  | nil =>
    intro r acc _ hr
    refine ⟨[], ?_, ?_, rfl, by intro d hd; simp at hd⟩
    · simp only [List.foldl_nil, List.length_nil, pow_zero, natOfDigits_nil]
      rw [Nat.mod_eq_of_lt (by omega)]
      simp
    · simp only [List.length_nil, pow_zero, natOfDigits_nil]
      rw [Nat.div_eq_of_lt (by omega)]
  | cons d ds ih =>
    intro r acc hok hr
    have hd9 : d ≤ 9 := by
      have := hok d (List.mem_cons_self _ _)
      omega
    rw [List.foldl_cons, divStep_spec b hb hbz hbn hbs r d acc hr hd9]
    have hr1 : (10 * r + d) % natOfDigits b.digits < natOfDigits b.digits :=
      Nat.mod_lt _ (by omega)
    obtain ⟨qs, hfold, hqv, hqlen, hqok⟩ :=
      ih ((10 * r + d) % natOfDigits b.digits) (acc ++ [(10 * r + d) / natOfDigits b.digits])
        (fun e he => hok e (List.mem_cons_of_mem _ he)) hr1
    have hq1 : (10 * r + d) / natOfDigits b.digits ≤ 9 := by
      have h1 : 10 * r + d < 10 * natOfDigits b.digits := by omega
      have h2 := (Nat.div_lt_iff_lt_mul (by omega : 0 < natOfDigits b.digits)).mpr h1
      omega
    refine ⟨(10 * r + d) / natOfDigits b.digits :: qs, ?_, ?_, by simp [hqlen], ?_⟩
    · rw [hfold]
      have hmodeq : ((10 * r + d) % natOfDigits b.digits * 10 ^ ds.length + natOfDigits ds)
          % natOfDigits b.digits
          = (r * 10 ^ (d :: ds).length + natOfDigits (d :: ds)) % natOfDigits b.digits := by
        have h1 : (10 * r + d) % natOfDigits b.digits ≡ 10 * r + d [MOD natOfDigits b.digits] :=
          Nat.mod_modEq _ _
        have h2 := (h1.mul_right (10 ^ ds.length)).add_right (natOfDigits ds)
        have h3 : (10 * r + d) * 10 ^ ds.length + natOfDigits ds
            = r * 10 ^ (d :: ds).length + natOfDigits (d :: ds) := by
          rw [natOfDigits_cons, List.length_cons, pow_succ]
          ring
        rw [← h3]
        exact h2
      rw [hmodeq, List.append_assoc]
      rfl
    · rw [natOfDigits_cons, hqlen, hqv]
      have hdm := Nat.div_add_mod (10 * r + d) (natOfDigits b.digits)
      have hT : r * 10 ^ (d :: ds).length + natOfDigits (d :: ds)
          = natOfDigits b.digits * ((10 * r + d) / natOfDigits b.digits * 10 ^ ds.length)
            + ((10 * r + d) % natOfDigits b.digits * 10 ^ ds.length + natOfDigits ds) := by
        rw [natOfDigits_cons, List.length_cons, pow_succ]
        calc r * (10 ^ ds.length * 10) + (d * 10 ^ ds.length + natOfDigits ds)
            = (10 * r + d) * 10 ^ ds.length + natOfDigits ds := by ring
          _ = (natOfDigits b.digits * ((10 * r + d) / natOfDigits b.digits)
              + (10 * r + d) % natOfDigits b.digits) * 10 ^ ds.length + natOfDigits ds := by
              rw [hdm]
          _ = natOfDigits b.digits * ((10 * r + d) / natOfDigits b.digits * 10 ^ ds.length)
              + ((10 * r + d) % natOfDigits b.digits * 10 ^ ds.length + natOfDigits ds) := by
              ring
      rw [hT, Nat.mul_add_div (by omega)]
    · intro e he
      rcases List.mem_cons.mp he with h1 | h1
      · omega
      · exact hqok e h1

/-- Core correctness of `BigDecimal::divide` on canonical operands with
a non-zero divisor: the result is the canonical form of the truncated
quotient `⌊A′·10^p / B′⌋` at `p = max(precision,0)` fractional digits,
where `A′`, `B′` are the scale-aligned digit values; its scale is `p`
(not `scale(a) − scale(b) + precision`), its sign is the XOR of the
operand signs for a non-zero quotient and `+` otherwise. -/
theorem divide_spec (a b : BigDec) (p : Int) (ha : Canonical a) (hb : Canonical b)
    (hbz : isZero b = false) :
    divide a b p =
      .ok (if (natOfDigits a.digits * 10 ^ (max a.scale b.scale - a.scale) * 10 ^ p.toNat)
            / (natOfDigits b.digits * 10 ^ (max a.scale b.scale - b.scale)) = 0
        then zeroBD
        else ⟨natDigits ((natOfDigits a.digits * 10 ^ (max a.scale b.scale - a.scale) * 10 ^ p.toNat)
            / (natOfDigits b.digits * 10 ^ (max a.scale b.scale - b.scale))),
          a.negative != b.negative, p.toNat⟩) := by
  obtain ⟨hn1, hn2, hs1, hs2, hv1, hv2, hl1, hl2, hok1, hok2, hh1, hh2⟩ := alignScales_spec a b
  have hbne : b.digits ≠ [] := hb.1
  have hbhead : b.digits.headI ≠ 0 := by
    intro h0
    have := hb.2.2 h0
    rw [(canonical_isZero_iff b hb).mpr this] at hbz
    simp at hbz
  have hB : 1 ≤ natOfDigits b.digits := canonical_val_pos b hb hbz
  have htot : (if 0 < p then p.toNat else 0) = p.toNat := by
    split
    · rfl
    · omega
  simp only [divide, hbz, Bool.false_eq_true, if_false, htot]
  set al := alignScales a b with hal
  set bb : BigDec := ⟨al.2.digits, false, 0⟩ with hbb
  have hbbcanon : Canonical bb := by
    refine ⟨?_, ?_, ?_⟩
    · intro h
      have : al.2.digits.length = 0 := by rw [h]; rfl
      rw [hl2] at this
      have : b.digits.length = 0 := by omega
      exact hbne (List.length_eq_zero.mp this)
    · exact hok2 hb.2.1
    · intro h
      exfalso
      apply hbhead
      rw [← hh2 hbne]
      exact h
  have hbbz : isZero bb = false := by
    rw [Bool.eq_false_iff]
    intro h
    have := (isZero_iff _).mp h
    simp only [hbb] at this
    apply hbhead
    rw [← hh2 hbne, this]
    rfl
  have hBB : natOfDigits bb.digits = natOfDigits b.digits * 10 ^ (max a.scale b.scale - b.scale) := by
    rw [hbb]
    exact hv2
  have hBBpos : 1 ≤ natOfDigits bb.digits := canonical_val_pos bb hbbcanon hbbz
  have hdsok : DigitsOK (al.1.digits ++ List.replicate p.toNat 0) := by
    intro d hd
    rcases List.mem_append.mp hd with h1 | h1
    · exact hok1 ha.2.1 d h1
    · have := List.eq_of_mem_replicate h1
      omega
  have hz0 : zeroBD = (⟨natDigits 0, false, 0⟩ : BigDec) := rfl
  obtain ⟨qs, hfold, hqv, hqlen, hqok⟩ :=
    divFold_spec bb hbbcanon hbbz rfl rfl (al.1.digits ++ List.replicate p.toNat 0)
      0 [] hdsok (by omega)
  rw [hz0, hfold]
  have hdsval : natOfDigits (al.1.digits ++ List.replicate p.toNat 0) =
      natOfDigits a.digits * 10 ^ (max a.scale b.scale - a.scale) * 10 ^ p.toNat := by
    rw [natOfDigits_append_replicate, hv1]
  have hQ : natOfDigits qs =
      (natOfDigits a.digits * 10 ^ (max a.scale b.scale - a.scale) * 10 ^ p.toNat)
        / (natOfDigits b.digits * 10 ^ (max a.scale b.scale - b.scale)) := by
    rw [hqv, hdsval, hBB]
    simp
  simp only [List.nil_append]
  rw [trimLeadingZeros_spec _ _ _ hqok, hQ]
  by_cases hq0 : (natOfDigits a.digits * 10 ^ (max a.scale b.scale - a.scale) * 10 ^ p.toNat)
      / (natOfDigits b.digits * 10 ^ (max a.scale b.scale - b.scale)) = 0
  · rw [if_pos hq0, if_pos hq0]
    have : isZero zeroBD = true := rfl
    rw [this]
    rfl
  · rw [if_neg hq0, if_neg hq0]
    have hnz : isZero ⟨natDigits ((natOfDigits a.digits * 10 ^ (max a.scale b.scale - a.scale) * 10 ^ p.toNat)
        / (natOfDigits b.digits * 10 ^ (max a.scale b.scale - b.scale))),
        a.negative != b.negative, p.toNat⟩ = false := by
      rw [Bool.eq_false_iff]
      intro h
      have h1 := (isZero_iff _).mp h
      simp only at h1
      exact hq0 ((natDigits_zero_iff _).mp h1)
    rw [hnz]
    rfl

theorem abs_valQ (x : BigDec) :
    |valQ x| = (natOfDigits x.digits : ℚ) / 10 ^ x.scale := by
  have hpow : (0 : ℚ) < 10 ^ x.scale := by positivity
  have hnum : (0 : ℚ) ≤ (natOfDigits x.digits : ℚ) := by positivity
  rw [valQ]
  by_cases h : x.negative
  · rw [if_pos h, abs_div, abs_of_nonneg (by positivity : (0:ℚ) ≤ 10 ^ x.scale)]
    rw [abs_of_nonpos (by nlinarith : (-1 : ℚ) * (natOfDigits x.digits : ℚ) ≤ 0)]
    ring
  · rw [if_neg h, abs_div, abs_of_nonneg (by positivity : (0:ℚ) ≤ 10 ^ x.scale),
      abs_of_nonneg (by nlinarith : (0 : ℚ) ≤ 1 * (natOfDigits x.digits : ℚ))]
    ring

/-- The Nat-level truncated quotient computed by `divide` is the floor
of the rational quotient scaled by `10^t`. -/
theorem floorQ_eq_divNat (a b : BigDec) (t : Nat) (hbv : 1 ≤ natOfDigits b.digits) :
    ⌊|valQ a| * 10 ^ t / |valQ b|⌋₊ =
      (natOfDigits a.digits * 10 ^ (max a.scale b.scale - a.scale) * 10 ^ t)
        / (natOfDigits b.digits * 10 ^ (max a.scale b.scale - b.scale)) := by
  have hsa : a.scale ≤ max a.scale b.scale := Nat.le_max_left _ _
  have hsb : b.scale ≤ max a.scale b.scale := Nat.le_max_right _ _
  have hB : (0 : ℚ) < (natOfDigits b.digits : ℚ) := by
    have : (1 : ℚ) ≤ (natOfDigits b.digits : ℚ) := by exact_mod_cast hbv
    linarith
  have hq : |valQ a| * 10 ^ t / |valQ b| =
      ((natOfDigits a.digits * 10 ^ (max a.scale b.scale - a.scale) * 10 ^ t : Nat) : ℚ)
        / ((natOfDigits b.digits * 10 ^ (max a.scale b.scale - b.scale) : Nat) : ℚ) := by
    rw [abs_valQ, abs_valQ]
    have hkey : (10 : ℚ) ^ a.scale * 10 ^ (max a.scale b.scale - a.scale)
        = 10 ^ b.scale * 10 ^ (max a.scale b.scale - b.scale) := by
      rw [← pow_add, ← pow_add]
      congr 1
      omega
    push_cast
    rw [div_eq_div_iff (ne_of_gt (div_pos hB (by positivity)))
      (ne_of_gt (mul_pos hB (by positivity)))]
    field_simp
    linear_combination (-(1 : ℚ) * (natOfDigits a.digits : ℚ) * (natOfDigits b.digits : ℚ) * (10 : ℚ) ^ t) * hkey
  rw [hq]
  exact Nat.floor_div_eq_div _ _

/-! ### Claim C2 -/

/-- C2 counterexample: dividing `-0.1` by `3` at precision 0 yields the
canonical zero, whose scale is `0` — not `scale(a) − scale(b) +
precision = 1` — and whose sign is `+`, not the XOR of the operand
signs. -/
theorem claim_C2_counterexample :
    parseFromString ("-0.1".toList) = .ok ⟨[1], true, 1⟩ ∧
    parseFromString ("3".toList) = .ok ⟨[3], false, 0⟩ ∧
    divide ⟨[1], true, 1⟩ ⟨[3], false, 0⟩ 0 = .ok ⟨[0], false, 0⟩ ∧
    (⟨[0], false, 0⟩ : BigDec).scale ≠ (1 : Nat) - 0 + 0 ∧
    (⟨[0], false, 0⟩ : BigDec).negative ≠ (true != false) := by
  refine ⟨rfl, rfl, by decide, by decide, by decide⟩

/-- C2 (amended): dividing by a zero denominator fails with the
division-by-zero error; for a non-zero denominator, `divide` produces
the exact quotient truncated toward zero at `max(precision, 0)`
fractional digits (the aligned scales cancel, so the pre-alignment
difference `scale(a) − scale(b)` does not appear); a non-zero result
carries scale `max(precision, 0)` and the XOR sign, and a zero quotient
yields the canonical zero `(+,[0],0)`. -/
theorem claim_C2_division (a b : BigDec) (p : Int)
    (ha : Canonical a) (hb : Canonical b) :
    (isZero b = true → divide a b p = .error "Division by zero") ∧
    (isZero b = false →
      divide a b p = .ok (if ⌊|valQ a| * 10 ^ p.toNat / |valQ b|⌋₊ = 0 then zeroBD
        else ⟨natDigits ⌊|valQ a| * 10 ^ p.toNat / |valQ b|⌋₊,
          a.negative != b.negative, p.toNat⟩) ∧
      ∀ r, divide a b p = .ok r →
        Canonical r ∧
        valQ r = (if a.negative != b.negative then (-1 : ℚ) else 1) *
          (⌊|valQ a| * 10 ^ p.toNat / |valQ b|⌋₊ : ℚ) / 10 ^ p.toNat ∧
        (isZero r = false →
          r.scale = p.toNat ∧ r.negative = (a.negative != b.negative))) := by
  constructor
  · intro h
    rw [divide, if_pos h]
  · intro hbz
    have hfloor := floorQ_eq_divNat a b p.toNat (canonical_val_pos b hb hbz)
    have hds := divide_spec a b p ha hb hbz
    constructor
    · rw [hfloor]
      exact hds
    · intro r hr
      rw [hds] at hr
      have hreq := (Except.ok.inj hr).symm
      rw [hfloor]
      by_cases hq0 : (natOfDigits a.digits * 10 ^ (max a.scale b.scale - a.scale) * 10 ^ p.toNat)
          / (natOfDigits b.digits * 10 ^ (max a.scale b.scale - b.scale)) = 0
      · rw [if_pos hq0] at hreq
        subst hreq
        refine ⟨zeroBD_canonical, ?_, ?_⟩
        · rw [valQ_zeroBD, hq0]
          norm_num
        · intro h
          rw [show isZero zeroBD = true from rfl] at h
          simp at h
      · rw [if_neg hq0] at hreq
        subst hreq
        refine ⟨?_, ?_, fun _ => ⟨rfl, rfl⟩⟩
        · obtain ⟨hne, hok, hhead⟩ := canonDigits_natDigits
            ((natOfDigits a.digits * 10 ^ (max a.scale b.scale - a.scale) * 10 ^ p.toNat)
              / (natOfDigits b.digits * 10 ^ (max a.scale b.scale - b.scale)))
          exact ⟨hne, hok, fun h =>
            absurd ((natDigits_zero_iff _).mp (hhead h)) hq0⟩
        · rw [valQ]
          simp only
          rw [natOfDigits_natDigits]

/-- Witness for `claim_C2_division` at `1 / 2` with precision 1. -/
theorem claim_C2_division_witness :
    Canonical (⟨[1], false, 0⟩ : BigDec) ∧ Canonical (⟨[2], false, 0⟩ : BigDec) ∧
    isZero (⟨[2], false, 0⟩ : BigDec) = false ∧
    divide ⟨[1], false, 0⟩ ⟨[2], false, 0⟩ 1 =
      .ok (if ⌊|valQ ⟨[1], false, 0⟩| * 10 ^ (1 : Int).toNat / |valQ ⟨[2], false, 0⟩|⌋₊ = 0
        then zeroBD
        else ⟨natDigits ⌊|valQ ⟨[1], false, 0⟩| * 10 ^ (1 : Int).toNat / |valQ ⟨[2], false, 0⟩|⌋₊,
          (⟨[1], false, 0⟩ : BigDec).negative != (⟨[2], false, 0⟩ : BigDec).negative,
          (1 : Int).toNat⟩) :=
  ⟨by decide, by decide, by decide,
    ((claim_C2_division ⟨[1], false, 0⟩ ⟨[2], false, 0⟩ 1 (by decide) (by decide)).2
      (by decide)).1⟩

/-! ### Claim C9 -/

/-- C9: `BigDecimal("0") - BigDecimal("0.5")` evaluates to `+9.5`
(digit vector `[9,5]`, scale 1, positive sign): the padded zero defeats
`compareAbs`, so the smaller magnitude is *not* subtracted from the
larger as the specification describes — the exact difference is
`-0.5`. -/
theorem claim_C9_subtraction_bug :
    parseFromString ("0".toList) = .ok zeroBD ∧
    parseFromString ("0.5".toList) = .ok ⟨[5], false, 1⟩ ∧
    sub zeroBD ⟨[5], false, 1⟩ = ⟨[9, 5], false, 1⟩ ∧
    valQ ⟨[9, 5], false, 1⟩ = 19 / 2 ∧
    valQ zeroBD - valQ ⟨[5], false, 1⟩ = -(1 / 2) := by
  refine ⟨rfl, rfl, rfl, ?_, ?_⟩
  · rw [valQ]
    norm_num [show natOfDigits [9, 5] = 95 from rfl]
  · rw [valQ_zeroBD, valQ]
    norm_num [show natOfDigits [5] = 5 from rfl]

/-! ### Claim C4: canonical representations -/

theorem char_toNat_le (a b : Char) (h : a ≤ b) : a.toNat ≤ b.toNat := by
  rw [Char.le_def, UInt32.le_def, BitVec.le_def] at h
  exact h

theorem digit_char_val (c : Char) (h : isDigitC c = true) :
    c.toNat - '0'.toNat < 10 := by
  simp [isDigitC] at h
  obtain ⟨h1, h2⟩ := h
  have g1 : c.toNat ≤ Char.toNat '9' := char_toNat_le _ _ h2
  have g2 : Char.toNat '0' ≤ c.toNat := char_toNat_le _ _ h1
  have e1 : Char.toNat '9' = 57 := rfl
  have e2 : Char.toNat '0' = 48 := rfl
  omega

theorem parseDigits_canonical (u2 : List Char) (neg : Bool) (σ : Nat) (x : BigDec)
    (h : parseDigits u2 neg σ = .ok x) : Canonical x := by
  rw [parseDigits] at h
  by_cases h1 : u2.any (fun c => !(isDigitC c)) = true
  · rw [if_pos h1] at h
    simp at h
  · rw [if_neg h1] at h
    by_cases h2 : u2 = []
    · rw [if_pos h2] at h
      simp at h
    · rw [if_neg h2] at h
      have hx : x = trimLeadingZeros ⟨u2.map (fun c => c.toNat - '0'.toNat), neg, σ⟩ :=
        (Except.ok.inj h).symm
      subst hx
      apply trimLeadingZeros_canonical
      intro d hd
      obtain ⟨c, hc, hcd⟩ := List.mem_map.mp hd
      have hdig : isDigitC c = true := by
        by_contra hnd
        apply h1
        rw [List.any_eq_true]
        exact ⟨c, hc, by simp [hnd]⟩
      rw [← hcd]
      exact digit_char_val c hdig

theorem parse_canonical (s : List Char) (x : BigDec)
    (h : parseFromString s = .ok x) : Canonical x := by
  rw [parseFromString] at h
  by_cases h1 : trimWs s = []
  · rw [if_pos h1] at h
    simp at h
  · rw [if_neg h1] at h
    by_cases h2 : (if (trimWs s).headI = '+' || (trimWs s).headI = '-'
        then (trimWs s).tail else trimWs s) = []
    · rw [if_pos h2] at h
      simp at h
    · rw [if_neg h2] at h
      cases hsd : splitDot (if (trimWs s).headI = '+' || (trimWs s).headI = '-'
          then (trimWs s).tail else trimWs s) with
      | none =>
        rw [hsd] at h
        exact parseDigits_canonical _ _ _ _ h
      | some pair =>
        obtain ⟨b', a'⟩ := pair
        rw [hsd] at h
        dsimp only at h
        by_cases h3 : a'.any (· = '.') = true
        · rw [if_pos h3] at h
          simp at h
        · rw [if_neg h3] at h
          exact parseDigits_canonical _ _ _ _ h

theorem canonical_val_zero (x : BigDec) (hx : Canonical x) (h : valQ x = 0) :
    x = zeroBD := by
  rw [valQ] at h
  have hpow : ((10 : ℚ) ^ x.scale) ≠ 0 := by positivity
  have hsign : (if x.negative then (-1 : ℚ) else 1) ≠ 0 := by
    by_cases hn : x.negative
    · rw [if_pos hn]; norm_num
    · rw [if_neg hn]; norm_num
  rw [div_eq_zero_iff] at h
  rcases h with h | h
  · rcases mul_eq_zero.mp h with h' | h'
    · exact absurd h' hsign
    · have : natOfDigits x.digits = 0 := by exact_mod_cast h'
      exact hx.2.2 (by
        rw [(canonDigits_zero_iff _ (canonical_digits x hx)).mp this]
        rfl)
  · exact absurd h hpow

theorem canonical_unique (x y : BigDec) (hx : Canonical x) (hy : Canonical y)
    (hs : x.scale = y.scale) (hv : valQ x = valQ y) : x = y := by
  by_cases hxz : natOfDigits x.digits = 0
  · have hx0 : x = zeroBD := hx.2.2 (by
      rw [(canonDigits_zero_iff _ (canonical_digits x hx)).mp hxz]
      rfl)
    have hv0 : valQ y = 0 := by
      rw [← hv, hx0, valQ_zeroBD]
    have hy0 : y = zeroBD := canonical_val_zero y hy hv0
    rw [hx0, hy0]
  · have hpow : ((10 : ℚ) ^ y.scale) ≠ 0 := by positivity
    rw [valQ, valQ, hs, div_eq_div_iff hpow hpow] at hv
    have hv2 : (if x.negative then (-1 : ℚ) else 1) * (natOfDigits x.digits : ℚ)
        = (if y.negative then (-1 : ℚ) else 1) * (natOfDigits y.digits : ℚ) :=
      mul_right_cancel₀ hpow hv
    have hyz : natOfDigits y.digits ≠ 0 := by
      intro h0
      rw [h0, Nat.cast_zero, mul_zero] at hv2
      have hx0 : (natOfDigits x.digits : ℚ) = 0 := by
        by_cases hn : x.negative
        · rw [if_pos hn, neg_one_mul, neg_eq_zero] at hv2
          exact hv2
        · rw [if_neg hn, one_mul] at hv2
          exact hv2
      exact hxz (by exact_mod_cast hx0)
    have hxpos : (0 : ℚ) < (natOfDigits x.digits : ℚ) := by
      have : 0 < natOfDigits x.digits := Nat.pos_of_ne_zero hxz
      exact_mod_cast this
    have hypos : (0 : ℚ) < (natOfDigits y.digits : ℚ) := by
      have : 0 < natOfDigits y.digits := Nat.pos_of_ne_zero hyz
      exact_mod_cast this
    have hneg : x.negative = y.negative := by
      by_cases hnx : x.negative
      · by_cases hny : y.negative
        · rw [hnx, hny]
        · exfalso
          rw [if_pos hnx, if_neg hny] at hv2
          nlinarith
      · by_cases hny : y.negative
        · exfalso
          rw [if_neg hnx, if_pos hny] at hv2
          nlinarith
        · simp [hnx, hny]
    have hvals : natOfDigits x.digits = natOfDigits y.digits := by
      rw [hneg] at hv2
      have : (natOfDigits x.digits : ℚ) = (natOfDigits y.digits : ℚ) := by
        by_cases hny : y.negative
        · rw [if_pos hny] at hv2; nlinarith
        · rw [if_neg hny] at hv2; nlinarith
      exact_mod_cast this
    have hdig : x.digits = y.digits :=
      canonDigits_inj _ _ (canonical_digits x hx) (canonical_digits y hy) hvals
    cases x with
    | mk dx nx sx =>
      cases y with
      | mk dy ny sy =>
        simp only at hdig hneg hs
        rw [hdig, hneg, hs]

/-- C4 counterexample: `"1.5"` and `"1.50"` parse to distinct
`(sign, digits, scale)` triples denoting the same number. -/
theorem claim_C4_counterexample :
    parseFromString ("1.5".toList) = .ok ⟨[1, 5], false, 1⟩ ∧
    parseFromString ("1.50".toList) = .ok ⟨[1, 5, 0], false, 2⟩ ∧
    valQ ⟨[1, 5], false, 1⟩ = valQ ⟨[1, 5, 0], false, 2⟩ ∧
    (⟨[1, 5], false, 1⟩ : BigDec) ≠ ⟨[1, 5, 0], false, 2⟩ := by
  refine ⟨rfl, rfl, ?_, by decide⟩
  rw [valQ, valQ]
  norm_num [show natOfDigits [1, 5] = 15 from rfl, show natOfDigits [1, 5, 0] = 150 from rfl]

/-- C4 (amended): parsing always yields the §3 canonical invariant
(decimal digits, leading zeros trimmed, zero represented exactly as
`(+,[0],0)`), and a canonical triple is uniquely determined by its
value *per scale*; equal values at different scales (trailing
fractional zeros) keep distinct triples. -/
theorem claim_C4_canonical :
    (∀ (s : List Char) (x : BigDec), parseFromString s = .ok x → Canonical x) ∧
    (∀ x y : BigDec, Canonical x → Canonical y → x.scale = y.scale →
      valQ x = valQ y → x = y) ∧
    (∀ x : BigDec, Canonical x → valQ x = 0 → x = zeroBD) :=
  ⟨parse_canonical, fun x y hx hy hs hv => canonical_unique x y hx hy hs hv,
    canonical_val_zero⟩

/-- Witness for `claim_C4_canonical`: `"007"` parses canonically. -/
theorem claim_C4_canonical_witness :
    parseFromString ("007".toList) = .ok ⟨[7], false, 0⟩ ∧
    Canonical ⟨[7], false, 0⟩ :=
  ⟨rfl, claim_C4_canonical.1 ("007".toList) ⟨[7], false, 0⟩ rfl⟩

/-! ### Claim C3: the parser's acceptance set -/

theorem splitDot_eq_none (u : List Char) :
    splitDot u = none ↔ ∀ c ∈ u, ¬(c = '.') := by
  induction u with
  | nil => simp [splitDot]
  | cons c rest ih =>
    rw [splitDot]
    by_cases hc : c = '.'
    · rw [if_pos hc]
      simp [hc]
    · rw [if_neg hc]
      cases hsd : splitDot rest with
      | none =>
        constructor
        · intro _ d hd
          rcases List.mem_cons.mp hd with h1 | h1
          · rw [h1]; exact hc
          · exact (ih.mp hsd) d h1
        · intro _; rfl
      | some pair =>
        obtain ⟨b0, a0⟩ := pair
        constructor
        · intro h; exact Option.noConfusion h
        · intro h
          exfalso
          have hnone := ih.mpr (fun d hd => h d (List.mem_cons_of_mem _ hd))
          rw [hnone] at hsd
          simp at hsd

theorem splitDot_eq_some (u : List Char) :
    ∀ b a, splitDot u = some (b, a) →
      u = b ++ '.' :: a ∧ ∀ c ∈ b, ¬(c = '.') := by
  induction u with
  | nil => intro b a h; simp [splitDot] at h
  | cons c rest ih =>
    intro b a h
    rw [splitDot] at h
    by_cases hc : c = '.'
    · rw [if_pos hc] at h
      have hb : b = [] ∧ a = rest := by
        have := Option.some.inj h
        exact ⟨(Prod.mk.inj this).1.symm, (Prod.mk.inj this).2.symm⟩
      rw [hb.1, hb.2, hc]
      exact ⟨rfl, by intro d hd; simp at hd⟩
    · rw [if_neg hc] at h
      cases hsd : splitDot rest with
      | none => rw [hsd] at h; simp at h
      | some pair =>
        obtain ⟨b0, a0⟩ := pair
        rw [hsd] at h
        simp only at h
        have hinj := Option.some.inj h
        have hb : b = c :: b0 ∧ a = a0 :=
          ⟨(Prod.mk.inj hinj).1.symm, (Prod.mk.inj hinj).2.symm⟩
        obtain ⟨hu, hbf⟩ := ih b0 a0 hsd
        rw [hb.1, hb.2]
        constructor
        · rw [List.cons_append, ← hu]
        · intro d hd
          rcases List.mem_cons.mp hd with h1 | h1
          · rw [h1]; exact hc
          · exact hbf d h1

theorem parseDigits_isOk (v : List Char) (neg : Bool) (σ : Nat) :
    (∃ x, parseDigits v neg σ = .ok x) ↔
      ((∀ c ∈ v, isDigitC c = true) ∧ v ≠ []) := by
  rw [parseDigits]
  by_cases h1 : v.any (fun c => !(isDigitC c)) = true
  · rw [if_pos h1]
    simp only [List.any_eq_true] at h1
    obtain ⟨c, hc, hnd⟩ := h1
    constructor
    · intro ⟨x, hx⟩; simp at hx
    · intro ⟨hall, _⟩
      exfalso
      have := hall c hc
      rw [this] at hnd
      simp at hnd
  · rw [if_neg h1]
    by_cases h2 : v = []
    · rw [if_pos h2]
      constructor
      · intro ⟨x, hx⟩; simp at hx
      · intro ⟨_, hne⟩; exact absurd h2 hne
    · rw [if_neg h2]
      constructor
      · intro _
        refine ⟨?_, h2⟩
        intro c hc
        by_contra hnd
        apply h1
        rw [List.any_eq_true]
        exact ⟨c, hc, by simp [hnd]⟩
      · intro _
        exact ⟨_, rfl⟩

theorem parse_isOk_iff (s : List Char) :
    (∃ x, parseFromString s = .ok x) ↔ GoodNumeral s = true := by
  rw [parseFromString, GoodNumeral]
  cases ht : trimWs s with
  | nil =>
    simp only
    constructor
    · intro ⟨x, hx⟩; simp at hx
    · intro h; simp at h
  | cons c rest =>
    simp only [List.headI_cons, List.tail_cons]
    rw [if_neg (by simp)]
    generalize hu0 : (if (c = '+' || c = '-') = true then rest else c :: rest) = u
    by_cases hune : u = []
    · rw [if_pos hune]
      constructor
      · intro ⟨x, hx⟩; simp at hx
      · intro h
        rw [hune] at h
        simp at h
    · rw [if_neg hune]
      cases hsd : splitDot u with
      | none =>
        have hnd := (splitDot_eq_none u).mp hsd
        rw [parseDigits_isOk]
        simp only [Bool.and_eq_true, decide_eq_true_eq, List.all_eq_true,
          List.any_eq_true]
        constructor
        · rintro ⟨hall, hne⟩
          refine ⟨⟨⟨hne, ?_⟩, ?_⟩, ?_⟩
          · intro d hd
            simp [hall d hd]
          · have h0 : u.countP (fun x => decide (x = '.')) = 0 :=
              List.countP_eq_zero.mpr (by intro a ha; simpa using hnd a ha)
            omega
          · obtain ⟨d, hd⟩ := List.exists_mem_of_ne_nil u hne
            exact ⟨d, hd, hall d hd⟩
        · rintro ⟨⟨⟨hne, hall⟩, -⟩, -⟩
          refine ⟨?_, hne⟩
          intro d hd
          have hor := hall d hd
          rw [Bool.or_eq_true] at hor
          rcases hor with h | h
          · exact h
          · exact absurd (of_decide_eq_true h) (hnd d hd)
      | some pair =>
        obtain ⟨b, a⟩ := pair
        dsimp only
        obtain ⟨huval, hbf⟩ := splitDot_eq_some u b a hsd
        have hb0 : b.countP (fun x => decide (x = '.')) = 0 :=
          List.countP_eq_zero.mpr (by intro x hx; simpa using hbf x hx)
        by_cases hadot : a.any (· = '.') = true
        · rw [if_pos hadot]
          simp only [Bool.and_eq_true, decide_eq_true_eq, List.all_eq_true,
            List.any_eq_true]
          constructor
          · rintro ⟨x, hx⟩; simp at hx
          · rintro ⟨⟨-, hcnt⟩, -⟩
            exfalso
            obtain ⟨d, hd, hdd⟩ := List.any_eq_true.mp hadot
            have h1 : 0 < a.countP (fun x => decide (x = '.')) :=
              List.countP_pos.mpr ⟨d, hd, hdd⟩
            have h2 : ('.' :: a).countP (fun x => decide (x = '.')) =
                a.countP (fun x => decide (x = '.')) + 1 := by
              simp [List.countP_cons]
            rw [huval, List.countP_append, h2, hb0] at hcnt
            omega
        · rw [if_neg hadot]
          have hana : ∀ d ∈ a, ¬(d = '.') := by
            intro d hd hdd
            exact hadot (List.any_eq_true.mpr ⟨d, hd, by simp [hdd]⟩)
          have ha0 : a.countP (fun x => decide (x = '.')) = 0 :=
            List.countP_eq_zero.mpr (by intro x hx; simpa using hana x hx)
          rw [parseDigits_isOk]
          simp only [Bool.and_eq_true, decide_eq_true_eq, List.all_eq_true,
            List.any_eq_true]
          constructor
          · rintro ⟨hall, hne⟩
            have hallb : ∀ d ∈ b, isDigitC d = true :=
              fun d hd => hall d (List.mem_append_left _ hd)
            have halla : ∀ d ∈ a, isDigitC d = true :=
              fun d hd => hall d (List.mem_append_right _ hd)
            refine ⟨⟨⟨?_, ?_⟩, ?_⟩, ?_⟩
            · rw [huval]; simp
            · rw [huval]
              intro d hd
              rcases List.mem_append.mp hd with h1 | h1
              · simp [hallb d h1]
              · rcases List.mem_cons.mp h1 with h2 | h2
                · simp [h2]
                · simp [halla d h2]
            · rw [huval, List.countP_append, List.countP_cons]
              simp [hb0, ha0]
            · rcases hbv : b with _ | ⟨d, ds⟩
              · rcases hav : a with _ | ⟨d, ds⟩
                · rw [hbv, hav] at hne; simp at hne
                · refine ⟨d, ?_, halla d (by rw [hav]; simp)⟩
                  rw [huval, hav]; simp
              · refine ⟨d, ?_, hallb d (by rw [hbv]; simp)⟩
                rw [huval, hbv]; simp
          · rintro ⟨⟨⟨-, hall⟩, -⟩, hdig⟩
            have hdigs : ∀ d ∈ b ++ a, isDigitC d = true := by
              intro d hd
              have hmem : d ∈ u := by
                rw [huval]
                rcases List.mem_append.mp hd with h1 | h1
                · exact List.mem_append_left _ h1
                · exact List.mem_append_right _ (List.mem_cons_of_mem _ h1)
              have hor := hall d hmem
              rw [Bool.or_eq_true] at hor
              rcases hor with h | h
              · exact h
              · exfalso
                have hdd := of_decide_eq_true h
                rcases List.mem_append.mp hd with h1 | h1
                · exact hbf d h1 hdd
                · exact hana d h1 hdd
            refine ⟨hdigs, ?_⟩
            obtain ⟨d, hd, hdd⟩ := hdig
            rw [huval] at hd
            rcases List.mem_append.mp hd with h1 | h1
            · intro hcon
              rw [List.append_eq_nil] at hcon
              rw [hcon.1] at h1
              simp at h1
            · rcases List.mem_cons.mp h1 with h2 | h2
              · rw [h2] at hdd
                simp [isDigitC] at hdd
              · intro hcon
                rw [List.append_eq_nil] at hcon
                rw [hcon.2] at h2
                simp at h2

/-- Claim C3: parsing succeeds exactly on optional surrounding whitespace,
an optional leading sign, and a non-empty run of digits containing at most
one dot anywhere — including a leading or trailing dot — and at least one
digit (the set decided by GoodNumeral); every rejected string fails with an
invalid-input error. The claim's stricter set, which demands a digit on
both sides of the dot, is refuted by the counterexample. -/
theorem claim_C3_parse_acceptance :
    (∀ s : List Char, (∃ x, parseFromString s = .ok x) ↔ GoodNumeral s = true) ∧
    (∀ s : List Char, GoodNumeral s = false → ∃ e, parseFromString s = .error e) := by
  refine ⟨parse_isOk_iff, ?_⟩
  intro s hbad
  cases hp : parseFromString s with
  | error e => exact ⟨e, rfl⟩
  | ok x =>
    exfalso
    have hgood := (parse_isOk_iff s).mp ⟨x, hp⟩
    rw [hgood] at hbad
    simp at hbad

/-- Claim C3 counterexample: the source accepts a leading dot (".5" parses
to 0.5 with scale 1) and a trailing dot ("1." parses to 1 with scale 0),
both of which the specification's acceptance set rejects. -/
theorem claim_C3_counterexample :
    parseFromString ".5".toList = .ok ⟨[5], false, 1⟩ ∧
    ClaimStrictNumeral ".5".toList = false ∧
    parseFromString "1.".toList = .ok ⟨[1], false, 0⟩ ∧
    ClaimStrictNumeral "1.".toList = false := by
  refine ⟨by decide, by decide, by decide, by decide⟩

/-- Concrete instance of the C3 acceptance theorem: "1,23" is outside the
accepted set and indeed fails with an error. -/
theorem claim_C3_parse_acceptance_witness :
    GoodNumeral "1,23".toList = false ∧
    (∃ e, parseFromString "1,23".toList = .error e) :=
  ⟨by decide, claim_C3_parse_acceptance.2 "1,23".toList (by decide)⟩

/-! ### Claim C1: the spec's comparison algorithm -/

theorem aligned_canonDigits_fst (a b : BigDec) (ha : Canonical a)
    (hz : isZero a = false) : CanonDigits (alignScales a b).1.digits := by
  obtain ⟨_, _, _, _, _, _, hl1, _, hd1, _, hh1, _⟩ := alignScales_spec a b
  refine ⟨?_, hd1 ha.2.1, ?_⟩
  · intro hnil
    rw [hnil] at hl1
    have := List.length_pos.mpr ha.1
    simp at hl1
    omega
  · intro hh
    rw [hh1 ha.1] at hh
    have hz2 := ha.2.2 hh
    rw [(canonical_isZero_iff a ha).mpr hz2] at hz
    simp at hz

theorem aligned_canonDigits_snd (a b : BigDec) (hb : Canonical b)
    (hz : isZero b = false) : CanonDigits (alignScales a b).2.digits := by
  obtain ⟨_, _, _, _, _, _, _, hl2, _, hd2, _, hh2⟩ := alignScales_spec a b
  refine ⟨?_, hd2 hb.2.1, ?_⟩
  · intro hnil
    rw [hnil] at hl2
    have := List.length_pos.mpr hb.1
    simp at hl2
    omega
  · intro hh
    rw [hh2 hb.1] at hh
    have hz2 := hb.2.2 hh
    rw [(canonical_isZero_iff b hb).mpr hz2] at hz
    simp at hz

theorem compareAbs_of_lt (u v : List Nat) (hu : DigitsOK u) (hv : DigitsOK v)
    (hlen : u.length ≤ v.length) (hval : natOfDigits u < natOfDigits v) :
    compareAbs u v = -1 := by
  rw [compareAbs]
  by_cases hl : u.length = v.length
  · rw [if_neg (by omega), lexCmp_spec u v hl hu hv, if_pos hval]
  · rw [if_pos hl, if_pos (by omega)]

theorem compareAbs_of_gt (u v : List Nat) (hu : DigitsOK u) (hv : DigitsOK v)
    (hlen : v.length ≤ u.length) (hval : natOfDigits v < natOfDigits u) :
    compareAbs u v = 1 := by
  rw [compareAbs]
  by_cases hl : u.length = v.length
  · rw [if_neg (by omega), lexCmp_spec u v hl hu hv, if_neg (by omega),
      if_neg (by omega)]
  · rw [if_pos hl, if_neg (by omega)]

theorem qdiv_lt_iff (x y : ℚ) (m : Nat) : x / 10 ^ m < y / 10 ^ m ↔ x < y := by
  have hden : (0 : ℚ) < 10 ^ m := by positivity
  rw [div_lt_div_iff hden hden]
  exact mul_lt_mul_right hden

theorem qdiv_eq_iff (x y : ℚ) (m : Nat) : x / 10 ^ m = y / 10 ^ m ↔ x = y := by
  have hden : (10 : ℚ) ^ m ≠ 0 := by positivity
  constructor
  · intro h
    have h2 := congrArg (· * 10 ^ m) h
    simpa [div_mul_cancel₀, hden] using h2
  · intro h; rw [h]

theorem valQ_div_form (a b : BigDec) :
    valQ a = (if a.negative then -((natOfDigits (alignScales a b).1.digits : ℚ))
      else (natOfDigits (alignScales a b).1.digits : ℚ)) / 10 ^ max a.scale b.scale ∧
    valQ b = (if b.negative then -((natOfDigits (alignScales a b).2.digits : ℚ))
      else (natOfDigits (alignScales a b).2.digits : ℚ)) / 10 ^ max a.scale b.scale := by
  obtain ⟨hn1, hn2, hs1, hs2, _, _, _, _, _, _, _, _⟩ := alignScales_spec a b
  obtain ⟨hq1, hq2⟩ := alignScales_valQ a b
  constructor
  · rw [← hq1, valQ, hn1, hs1]
    cases a.negative
    · simp
    · simp
  · rw [← hq2, valQ, hn2, hs2]
    cases b.negative
    · simp
    · simp

theorem compareBD_correct (a b : BigDec) (ha : Canonical a) (hb : Canonical b)
    (hne : ¬CmpExceptional a b) :
    compareBD a b = (if valQ a < valQ b then Ordering.lt
      else if valQ a = valQ b then Ordering.eq else Ordering.gt) := by
  obtain ⟨hn1, hn2, hs1, hs2, hv1, hv2, hl1, hl2, hok1, hok2, hh1, hh2⟩ :=
    alignScales_spec a b
  obtain ⟨hfa, hfb⟩ := valQ_div_form a b
  simp only [compareBD]
  rw [hn1, hn2]
  by_cases hza : isZero a = true
  · have haz := (canonical_isZero_iff a ha).mp hza
    subst haz
    by_cases hzb : isZero b = true
    · have hbz := (canonical_isZero_iff b hb).mp hzb
      subst hbz
      rw [if_neg (by simp), if_neg (by decide)]
      have hc0 : compareAbs (alignScales zeroBD zeroBD).1.digits
          (alignScales zeroBD zeroBD).2.digits = 0 := by decide
      rw [hc0, if_neg (by norm_num), if_pos rfl, if_neg (lt_irrefl _), if_pos rfl]
    · have hzb2 : isZero b = false := by
        cases hv : isZero b
        · rfl
        · exact absurd hv hzb
      have hnb : 1 ≤ natOfDigits b.digits := canonical_val_pos b hb hzb2
      cases hbn : b.negative
      · -- b positive and non-zero: not exceptional forces len(b) > scale(b)
        have hLb : ¬(b.digits.length ≤ b.scale) := by
          intro hle
          exact hne (Or.inl ⟨rfl, hzb2, hbn, hle⟩)
        rw [if_neg (by simp [zeroBD]), if_neg (by decide)]
        have hmax : max zeroBD.scale b.scale = b.scale := by
          simp [zeroBD]
        have hA : natOfDigits (alignScales zeroBD b).1.digits = 0 := by
          rw [hv1]
          simp [zeroBD, natOfDigits_singleton]
        have hB : natOfDigits (alignScales zeroBD b).2.digits
            = natOfDigits b.digits := by
          rw [hv2, hmax, Nat.sub_self, pow_zero, Nat.mul_one]
        have hlen : (alignScales zeroBD b).1.digits.length
            ≤ (alignScales zeroBD b).2.digits.length := by
          rw [hl1, hl2, hmax]
          simp [zeroBD]
          omega
        have hcmp := compareAbs_of_lt _ _
          (hok1 (by intro d hd; simp [zeroBD] at hd; omega))
          (hok2 hb.2.1) hlen (by rw [hA, hB]; omega)
        rw [hcmp, if_pos (by norm_num)]
        have hlt : valQ zeroBD < valQ b := by
          rw [valQ_zeroBD, valQ_false b hbn]
          positivity
        rw [if_pos hlt]
      · -- b negative: signs differ, zero is greater
        rw [if_pos (by simp [zeroBD]), if_neg (by decide)]
        have hlt : valQ b < valQ zeroBD := by
          rw [valQ_zeroBD, valQ_true b hbn]
          have h1 : (0 : ℚ) < (natOfDigits b.digits : ℚ) / 10 ^ b.scale := by
            positivity
          linarith
        rw [if_neg (asymm hlt), if_neg (Ne.symm (ne_of_lt hlt))]
  · have hza2 : isZero a = false := by
      cases hv : isZero a
      · rfl
      · exact absurd hv hza
    have hna : 1 ≤ natOfDigits a.digits := canonical_val_pos a ha hza2
    by_cases hzb : isZero b = true
    · have hbz := (canonical_isZero_iff b hb).mp hzb
      subst hbz
      cases han : a.negative
      · -- a positive and non-zero: not exceptional forces len(a) > scale(a)
        have hLa : ¬(a.digits.length ≤ a.scale) := by
          intro hle
          exact hne (Or.inr ⟨rfl, hza2, han, hle⟩)
        rw [if_neg (by simp [zeroBD]), if_neg (by simp)]
        have hmax : max a.scale zeroBD.scale = a.scale := by
          simp [zeroBD]
        have hB : natOfDigits (alignScales a zeroBD).2.digits = 0 := by
          rw [hv2]
          simp [zeroBD, natOfDigits_singleton]
        have hA : natOfDigits (alignScales a zeroBD).1.digits
            = natOfDigits a.digits := by
          rw [hv1, hmax, Nat.sub_self, pow_zero, Nat.mul_one]
        have hlen : (alignScales a zeroBD).2.digits.length
            ≤ (alignScales a zeroBD).1.digits.length := by
          rw [hl1, hl2, hmax]
          simp [zeroBD]
          omega
        have hcmp := compareAbs_of_gt _ _
          (hok1 ha.2.1)
          (hok2 (by intro d hd; simp [zeroBD] at hd; omega))
          hlen (by rw [hA, hB]; omega)
        rw [hcmp, if_neg (by norm_num), if_neg (by norm_num)]
        have hlt : valQ zeroBD < valQ a := by
          rw [valQ_zeroBD, valQ_false a han]
          positivity
        rw [if_neg (asymm hlt), if_neg (Ne.symm (ne_of_lt hlt))]
      · -- a negative, b zero: signs differ, a smaller
        rw [if_pos (by simp [zeroBD]), if_pos rfl]
        have hlt : valQ a < valQ zeroBD := by
          rw [valQ_zeroBD, valQ_true a han]
          have h1 : (0 : ℚ) < (natOfDigits a.digits : ℚ) / 10 ^ a.scale := by
            positivity
          linarith
        rw [if_pos hlt]
    · -- both non-zero
      have hzb2 : isZero b = false := by
        cases hv : isZero b
        · rfl
        · exact absurd hv hzb
      have hnb : 1 ≤ natOfDigits b.digits := canonical_val_pos b hb hzb2
      have hAan : 1 ≤ natOfDigits (alignScales a b).1.digits := by
        rw [hv1]
        have : 0 < 10 ^ (max a.scale b.scale - a.scale) := by positivity
        exact Nat.one_le_iff_ne_zero.mpr (Nat.mul_ne_zero (by omega) (by omega))
      have hBbn : 1 ≤ natOfDigits (alignScales a b).2.digits := by
        rw [hv2]
        have : 0 < 10 ^ (max a.scale b.scale - b.scale) := by positivity
        exact Nat.one_le_iff_ne_zero.mpr (Nat.mul_ne_zero (by omega) (by omega))
      have hcc := compareAbs_spec _ _
        (aligned_canonDigits_fst a b ha hza2) (aligned_canonDigits_snd a b hb hzb2)
      by_cases hs : a.negative = b.negative
      · rw [if_neg (by rw [hs]; simp)]
        cases han : a.negative
        · -- both positive
          rw [if_neg (by simp)]
          rcases lt_trichotomy (natOfDigits (alignScales a b).1.digits)
              (natOfDigits (alignScales a b).2.digits) with h | h | h
          · have hc0 : compareAbs (alignScales a b).1.digits
                (alignScales a b).2.digits = -1 := by
              rw [hcc, if_pos h]
            rw [hc0, if_pos (by norm_num)]
            have hq : valQ a < valQ b := by
              rw [hfa, hfb, han, ← hs, han, if_neg (by simp), if_neg (by simp),
                qdiv_lt_iff]
              exact_mod_cast h
            rw [if_pos hq]
          · have hc0 : compareAbs (alignScales a b).1.digits
                (alignScales a b).2.digits = 0 := by
              rw [hcc, if_neg (by omega), if_pos h]
            rw [hc0, if_neg (by norm_num), if_pos rfl]
            have hq : valQ a = valQ b := by
              rw [hfa, hfb, han, ← hs, han, if_neg (by simp), if_neg (by simp),
                qdiv_eq_iff]
              exact_mod_cast h
            rw [if_neg (by rw [hq]; exact lt_irrefl _), if_pos hq]
          · have hc0 : compareAbs (alignScales a b).1.digits
                (alignScales a b).2.digits = 1 := by
              rw [hcc, if_neg (by omega), if_neg (by omega)]
            rw [hc0, if_neg (by norm_num), if_neg (by norm_num)]
            have hq : valQ b < valQ a := by
              rw [hfa, hfb, han, ← hs, han, if_neg (by simp), if_neg (by simp),
                qdiv_lt_iff]
              exact_mod_cast h
            rw [if_neg (asymm hq), if_neg (Ne.symm (ne_of_lt hq))]
        · -- both negative: magnitude order reversed
          rw [if_pos rfl]
          rcases lt_trichotomy (natOfDigits (alignScales a b).1.digits)
              (natOfDigits (alignScales a b).2.digits) with h | h | h
          · have hc0 : compareAbs (alignScales a b).1.digits
                (alignScales a b).2.digits = -1 := by
              rw [hcc, if_pos h]
            rw [hc0, if_pos (by norm_num)]
            have hq : valQ b < valQ a := by
              rw [hfa, hfb, han, ← hs, han, if_pos rfl, if_pos rfl,
                qdiv_lt_iff, neg_lt_neg_iff]
              exact_mod_cast h
            rw [if_neg (asymm hq), if_neg (Ne.symm (ne_of_lt hq))]
          · have hc0 : compareAbs (alignScales a b).1.digits
                (alignScales a b).2.digits = 0 := by
              rw [hcc, if_neg (by omega), if_pos h]
            rw [hc0, if_neg (by norm_num), if_pos rfl]
            have hq : valQ a = valQ b := by
              rw [hfa, hfb, han, ← hs, han, if_pos rfl, if_pos rfl,
                qdiv_eq_iff, neg_inj]
              exact_mod_cast h
            rw [if_neg (by rw [hq]; exact lt_irrefl _), if_pos hq]
          · have hc0 : compareAbs (alignScales a b).1.digits
                (alignScales a b).2.digits = 1 := by
              rw [hcc, if_neg (by omega), if_neg (by omega)]
            rw [hc0, if_neg (by norm_num), if_neg (by norm_num)]
            have hq : valQ a < valQ b := by
              rw [hfa, hfb, han, ← hs, han, if_pos rfl, if_pos rfl,
                qdiv_lt_iff, neg_lt_neg_iff]
              exact_mod_cast h
            rw [if_pos hq]
      · -- signs differ, both non-zero
        rw [if_pos hs]
        cases han : a.negative
        · have hbn : b.negative = true := by
            cases hbv : b.negative
            · exact absurd (han.trans hbv.symm) hs
            · rfl
          rw [if_neg (by simp)]
          have hq : valQ b < valQ a := by
            rw [hfa, hfb, han, hbn, if_pos rfl, if_neg (by simp), qdiv_lt_iff]
            have h1 : (0 : ℚ) < (natOfDigits (alignScales a b).1.digits : ℚ) := by
              exact_mod_cast hAan
            have h2 : (0 : ℚ) ≤ (natOfDigits (alignScales a b).2.digits : ℚ) :=
              Nat.cast_nonneg _
            linarith
          rw [if_neg (asymm hq), if_neg (Ne.symm (ne_of_lt hq))]
        · have hbn : b.negative = false := by
            cases hbv : b.negative
            · rfl
            · exact absurd (han.trans hbv.symm) hs
          rw [if_pos rfl]
          have hq : valQ a < valQ b := by
            rw [hfa, hfb, han, hbn, if_pos rfl, if_neg (by simp), qdiv_lt_iff]
            have h1 : (0 : ℚ) < (natOfDigits (alignScales a b).1.digits : ℚ) := by
              exact_mod_cast hAan
            have h2 : (0 : ℚ) ≤ (natOfDigits (alignScales a b).2.digits : ℚ) :=
              Nat.cast_nonneg _
            linarith
          rw [if_pos hq]

/-! ### Claim C5: duplicate object keys -/

theorem objLookup_some_any (obj : List (List Char × Json)) (k : List Char)
    (v0 : Json) (h : objLookup obj k = some v0) :
    obj.any (fun p => p.1 = k) = true := by
  induction obj with
  | nil => simp [objLookup] at h
  | cons p rest ih =>
    obtain ⟨k', w⟩ := p
    rw [objLookup] at h
    rw [List.any_cons]
    by_cases hk : k' = k
    · rw [Bool.or_eq_true]
      left
      simp [hk]
    · rw [if_neg hk] at h
      rw [Bool.or_eq_true]
      right
      exact ih h

theorem objLookup_none_any (obj : List (List Char × Json)) (k : List Char)
    (h : objLookup obj k = none) :
    obj.any (fun p => p.1 = k) = false := by
  induction obj with
  | nil => rfl
  | cons p rest ih =>
    obtain ⟨k', w⟩ := p
    rw [objLookup] at h
    by_cases hk : k' = k
    · rw [if_pos hk] at h
      simp at h
    · rw [if_neg hk] at h
      rw [List.any_cons, ih h]
      simp [hk]

theorem objLookup_append_right (obj : List (List Char × Json)) (k : List Char)
    (v : Json) (h : objLookup obj k = none) :
    objLookup (obj ++ [(k, v)]) k = some v := by
  induction obj with
  | nil => simp [objLookup]
  | cons p rest ih =>
    obtain ⟨k', w⟩ := p
    rw [objLookup] at h
    by_cases hk : k' = k
    · rw [if_pos hk] at h
      simp at h
    · rw [if_neg hk] at h
      rw [List.cons_append, objLookup, if_neg hk]
      exact ih h

/-- Claim C5: when the JSON text repeats a key, `parse_object` resolves
the duplicate first-writer-wins, not last-writer-wins: `emplace` leaves an
existing entry untouched (first conjunct), a fresh key is appended (second
conjunct), and the parse of an object text with a repeated key keeps the
value of the key's first occurrence (third conjunct). -/
theorem claim_C5_duplicate_keys :
    (∀ (obj : List (List Char × Json)) (k : List Char) (v v0 : Json),
      objLookup obj k = some v0 → objLookup (objEmplace obj k v) k = some v0) ∧
    (∀ (obj : List (List Char × Json)) (k : List Char) (v : Json),
      objLookup obj k = none → objLookup (objEmplace obj k v) k = some v) ∧
    jsonParse "\x7b\"a\":true,\"a\":false\x7d".toList
      = .ok (Json.obj [(['a'], Json.bool true)]) := by
  refine ⟨?_, ?_, rfl⟩
  · intro obj k v v0 h
    rw [objEmplace, if_pos (objLookup_some_any obj k v0 h)]
    exact h
  · intro obj k v h
    rw [objEmplace]
    rw [objLookup_none_any obj k h]
    simp only [Bool.false_eq_true, if_false]
    exact objLookup_append_right obj k v h

/-- Claim C5 counterexample: in the text the last occurrence of key "a"
carries `false`, but the parsed object maps "a" to `true`, the value of
the first occurrence. -/
theorem claim_C5_counterexample :
    jsonParse "\x7b\"a\":true,\"a\":false\x7d".toList
      = .ok (Json.obj [(['a'], Json.bool true)]) ∧
    objLookup [(['a'], Json.bool true)] ['a'] = some (Json.bool true) ∧
    some (Json.bool true) ≠ some (Json.bool false) := by
  refine ⟨rfl, rfl, ?_⟩
  intro h
  simp at h

/-- Concrete instance of the C5 theorem: re-emplacing key "a" with a new
value leaves the first value in place. -/
theorem claim_C5_duplicate_keys_witness :
    objLookup [(['a'], Json.bool true)] ['a'] = some (Json.bool true) ∧
    objLookup (objEmplace [(['a'], Json.bool true)] ['a'] (Json.bool false)) ['a']
      = some (Json.bool true) :=
  ⟨rfl, claim_C5_duplicate_keys.1 [(['a'], Json.bool true)] ['a']
    (Json.bool false) (Json.bool true) rfl⟩

/-! ### Claim C10: first-occurrence query accessors -/

theorem qpAdd_wf (acc : List (List Char × List (List Char)))
    (k v : List Char) (hwf : ∀ p ∈ acc, p.2 ≠ []) :
    ∀ p ∈ qpAdd acc k v, p.2 ≠ [] := by
  induction acc with
  | nil =>
    intro p hp
    simp [qpAdd] at hp
    rw [hp]
    simp
  | cons q rest ih =>
    obtain ⟨k0, vs⟩ := q
    intro p hp
    rw [qpAdd] at hp
    by_cases hk : k0 = k
    · rw [if_pos hk] at hp
      rcases List.mem_cons.mp hp with h1 | h1
      · rw [h1]
        simp
      · exact hwf p (List.mem_cons_of_mem _ h1)
    · rw [if_neg hk] at hp
      rcases List.mem_cons.mp hp with h1 | h1
      · rw [h1]
        exact hwf (k0, vs) (List.mem_cons_self _ _)
      · exact ih (fun q hq => hwf q (List.mem_cons_of_mem _ hq)) p h1

theorem qpGet_qpAdd (acc : List (List Char × List (List Char)))
    (k v k' : List Char) (hwf : ∀ p ∈ acc, p.2 ≠ []) :
    qpGet (qpAdd acc k v) k' =
      match qpGet acc k' with
      | some w => some w
      | none => if k = k' then some v else none := by
  induction acc with
  | nil =>
    by_cases hk : k = k'
    · simp [qpAdd, qpGet, qpFind, hk]
    · simp [qpAdd, qpGet, qpFind, hk]
  | cons q rest ih =>
    obtain ⟨k0, vs⟩ := q
    rw [qpAdd]
    by_cases hk : k0 = k
    · rw [if_pos hk]
      by_cases hk' : k0 = k'
      · have hvs : vs ≠ [] := hwf (k0, vs) (List.mem_cons_self _ _)
        cases vs with
        | nil => exact absurd rfl hvs
        | cons v0 vrest => simp [qpGet, qpFind, hk']
      · have hkk' : ¬(k = k') := by rw [← hk]; exact hk'
        simp only [qpGet, qpFind, if_neg hk']
        cases hr : qpFind rest k' with
        | none => simp [if_neg hkk']
        | some ws =>
          cases ws with
          | nil => rw [if_neg hkk']
          | cons w ws2 => simp
    · rw [if_neg hk]
      by_cases hk' : k0 = k'
      · simp only [qpGet, qpFind, if_pos hk']
        cases vs with
        | nil => exact absurd rfl (hwf (k0, []) (List.mem_cons_self _ _))
        | cons v0 vrest => simp
      · simp only [qpGet, qpFind, if_neg hk']
        exact ih (fun q hq => hwf q (List.mem_cons_of_mem _ hq))

theorem foldl_qpStep_get (pairs : List (List Char))
    (acc : List (List Char × List (List Char))) (k : List Char)
    (hwf : ∀ p ∈ acc, p.2 ≠ []) :
    qpGet (pairs.foldl qpStep acc) k =
      match qpGet acc k with
      | some w => some w
      | none => ((pairs.filterMap qpPair).find? (fun p => p.1 = k)).map (fun p => p.2) := by
  induction pairs generalizing acc with
  | nil =>
    rw [List.foldl_nil, List.filterMap_nil, List.find?_nil]
    cases qpGet acc k <;> simp
  | cons pair rest ih =>
    rw [List.foldl_cons, List.filterMap_cons]
    cases hqp : qpPair pair with
    | none =>
      have hstep : qpStep acc pair = acc := by rw [qpStep, hqp]
      rw [hstep]
      exact ih acc hwf
    | some kv =>
      obtain ⟨key, value⟩ := kv
      have hstep : qpStep acc pair = qpAdd acc key value := by rw [qpStep, hqp]
      rw [hstep, ih (qpAdd acc key value) (qpAdd_wf acc key value hwf),
        qpGet_qpAdd acc key value k hwf]
      cases hacc : qpGet acc k with
      | some w => rfl
      | none =>
        by_cases hkey : key = k
        · rw [if_pos hkey]
          rw [List.find?_cons_of_pos _ (by simp [hkey])]
          rfl
        · rw [if_neg hkey]
          rw [List.find?_cons_of_neg _ (by simp [hkey])]

/-- Claim C10: `QueryParams::get` of a parsed query string returns the
value of the key's first occurrence in the raw text (firstVal reads the
pairs in order and takes the first with that decoded key), and absent
keys give `none` rather than an error (firstVal is `none` exactly then);
the typed accessors are `get` followed by the respective conversion,
so they inherit both properties. -/
theorem claim_C10_get_first :
    (∀ raw k, qpGet (parse_query_string raw) k = firstVal raw k) ∧
    (∀ m k, qpGetInt m k = (qpGet m k).bind stoiModel) ∧
    (∀ m k, qpGetDouble m k = (qpGet m k).bind stodModel) ∧
    (∀ m k, qpGetBool m k = (qpGet m k).bind boolOfWord) := by
  refine ⟨?_, fun m k => rfl, fun m k => rfl, fun m k => rfl⟩
  intro raw k
  rw [parse_query_string, firstVal,
    foldl_qpStep_get (raw.splitOn '&') [] k (by intro p hp; simp at hp)]
  rfl

/-! ### Claim C7: pattern matching over clean segment lists -/

theorem findIdx_noslash (c : Char) (sg : List Char)
    (h : ∀ x ∈ sg, ¬(x = c)) :
    ∀ (t : List Char) (i : Nat),
      List.findIdx? (fun x => x = c) (sg ++ t) i
        = List.findIdx? (fun x => x = c) t (i + sg.length) := by
  induction sg with
  | nil => intro t i; simp
  | cons a sg2 ih =>
    intro t i
    rw [List.cons_append, List.findIdx?_cons,
      if_neg (by simp [h a (List.mem_cons_self _ _)]),
      ih (fun x hx => h x (List.mem_cons_of_mem _ hx)) t (i + 1)]
    congr 1
    simp
    omega

theorem findFrom_eq (s : List Char) (c : Char) (start : Nat) (sg t : List Char)
    (hstart : start ≤ s.length) (hdrop : s.drop start = sg ++ t)
    (hsg : ∀ x ∈ sg, ¬(x = c))
    (hhead : t = [] ∨ (t ≠ [] ∧ t.headI = c)) :
    findFrom s c start = start + sg.length := by
  rw [findFrom, hdrop, findIdx_noslash c sg hsg t 0]
  rcases hhead with h | ⟨hne, hh⟩
  · subst h
    rw [List.findIdx?_nil]
    have h1 : (s.drop start).length = s.length - start := List.length_drop _ _
    rw [hdrop] at h1
    simp at h1
    show s.length = start + sg.length
    omega
  · cases t with
    | nil => exact absurd rfl hne
    | cons a t2 =>
      have ha : a = c := hh
      rw [List.findIdx?_cons, if_pos (by simp [ha])]
      simp

theorem nextSeg_nil (s : List Char) (pos : Nat) (h : s.length ≤ pos) :
    nextSeg s pos = ([], pos) := by
  rw [nextSeg, if_pos h]

theorem nextSeg_seg (s : List Char) (pos : Nat) (sg t : List Char)
    (hdrop : s.drop pos = '/' :: (sg ++ t)) (hsg : sg ≠ [])
    (hns : ∀ x ∈ sg, ¬(x = '/'))
    (ht : t = [] ∨ (t ≠ [] ∧ t.headI = '/')) :
    nextSeg s pos = (sg, pos + 1 + sg.length) ∧
    s.drop (pos + 1) = sg ++ t ∧
    s.drop (pos + 1 + sg.length) = t := by
  have hlt : pos < s.length := by
    by_contra hge
    push_neg at hge
    rw [List.drop_eq_nil_iff_le.mpr hge] at hdrop
    simp at hdrop
  have hget : s.getD pos ' ' = '/' := by
    have h1 : (s.drop pos).head? = s[pos]? := List.head?_drop s pos
    rw [hdrop] at h1
    rw [List.getD_eq_getElem?_getD, ← h1]
    rfl
  have hd1 : s.drop (pos + 1) = sg ++ t := by
    have h2 : List.drop 1 (List.drop pos s) = List.drop (pos + 1) s :=
      List.drop_drop 1 pos s
    rw [← h2, hdrop]
    rfl
  have hlen1 : pos + 1 < s.length := by
    by_contra hge
    push_neg at hge
    rw [List.drop_eq_nil_iff_le.mpr hge] at hd1
    cases sg with
    | nil => exact absurd rfl hsg
    | cons a sg2 => simp at hd1
  have hfind : findFrom s '/' (pos + 1) = (pos + 1) + sg.length :=
    findFrom_eq s '/' (pos + 1) sg t (by omega) hd1 hns ht
  have hd2 : s.drop (pos + 1 + sg.length) = t := by
    have h2 : List.drop sg.length (List.drop (pos + 1) s)
        = List.drop (pos + 1 + sg.length) s := List.drop_drop sg.length (pos + 1) s
    rw [← h2, hd1, List.drop_left]
  refine ⟨?_, hd1, hd2⟩
  simp only [nextSeg]
  rw [if_neg (by omega),
    show (if s.getD pos ' ' = '/' then pos + 1 else pos) = pos + 1 from if_pos hget,
    if_neg (by omega), hfind]
  have htake : (s.drop (pos + 1)).take ((pos + 1) + sg.length - (pos + 1)) = sg := by
    rw [hd1]
    have h3 : (pos + 1) + sg.length - (pos + 1) = sg.length := by omega
    rw [h3, List.take_left]
  rw [htake]

theorem pathStr_eq_nil (segs : List (List Char)) :
    pathStr segs = [] ↔ segs = [] := by
  cases segs with
  | nil => simp [pathStr]
  | cons sg rest => simp [pathStr]

theorem pathStr_length_ge (segs : List (List Char)) :
    segs.length ≤ (pathStr segs).length := by
  induction segs with
  | nil => simp [pathStr]
  | cons sg rest ih =>
    rw [pathStr]
    simp only [List.length_cons, List.length_append]
    omega

theorem nextSeg_clean (s : List Char) (pos : Nat) (segs : List (List Char))
    (hdrop : s.drop pos = pathStr segs) (hcl : CleanSegs segs) :
    (segs = [] ∧ nextSeg s pos = ([], pos) ∧ s.length ≤ pos) ∨
    (∃ sg rest, segs = sg :: rest ∧
      nextSeg s pos = (sg, pos + 1 + sg.length) ∧
      s.drop (pos + 1) = sg ++ pathStr rest ∧
      s.drop (pos + 1 + sg.length) = pathStr rest) := by
  cases segs with
  | nil =>
    left
    rw [pathStr] at hdrop
    have hle : s.length ≤ pos := List.drop_eq_nil_iff_le.mp hdrop
    exact ⟨rfl, nextSeg_nil s pos hle, hle⟩
  | cons sg rest =>
    right
    rw [pathStr] at hdrop
    obtain ⟨hsg, hns⟩ := hcl sg (List.mem_cons_self _ _)
    have ht : pathStr rest = [] ∨ (pathStr rest ≠ [] ∧ (pathStr rest).headI = '/') := by
      cases rest with
      | nil => left; rfl
      | cons r0 rr => right; exact ⟨by simp [pathStr], rfl⟩
    obtain ⟨h1, h2, h3⟩ := nextSeg_seg s pos sg (pathStr rest) hdrop hsg hns ht
    exact ⟨sg, rest, rfl, h1, h2, h3⟩

theorem strFind_at (s sub : List Char) (start : Nat) (hstart : start ≤ s.length)
    (hat : substrAt s sub start = true) : strFind s sub start = some start := by
  rw [strFind]
  have h1 : s.length + 1 - start = (s.length - start) + 1 := by omega
  rw [h1, List.range_succ_eq_map, List.find?_cons]
  have h0 : substrAt s sub (start + 0) = true := by
    rw [Nat.add_zero]
    exact hat
  rw [h0]
  rfl

theorem matchLoopF_clean (psegs : List (List Char)) :
    ∀ (ssegs : List (List Char)) (pattern path : List Char) (i j : Nat)
      (params : List (List Char × List Char)) (fuel : Nat),
      pattern.drop i = pathStr psegs → path.drop j = pathStr ssegs →
      CleanSegs psegs → CleanSegs ssegs →
      psegs.length + 1 ≤ fuel →
      matchLoopF fuel pattern path i j params = cleanMatch psegs ssegs params := by
  induction psegs with
  | nil =>
    intro ssegs pattern path i j params fuel hp hs hcp hcs hfuel
    cases fuel with
    | zero => omega
    | succ fl =>
      rcases nextSeg_clean pattern i [] hp hcp with ⟨-, hnsp, hple⟩ | ⟨sg, rest, habs, -⟩
      · rcases nextSeg_clean path j ssegs hs hcs with ⟨hse, hnss, hsle⟩ |
            ⟨sg, rest, hseq, hnss, -, -⟩
        · subst hse
          simp only [matchLoopF, hnsp, hnss]
          rw [if_pos ⟨⟨trivial, hple⟩, ⟨trivial, hsle⟩⟩]
          rfl
        · subst hseq
          obtain ⟨hsg, -⟩ := hcs sg (List.mem_cons_self _ _)
          simp only [matchLoopF, hnsp, hnss]
          rw [if_neg (by rintro ⟨-, ⟨h1, -⟩⟩; exact hsg h1),
            if_neg (by rintro ⟨-, h2⟩; exact h2 ⟨trivial, hple⟩),
            if_neg (by rintro ⟨h2, -⟩; exact h2 ⟨trivial, hple⟩),
            if_neg (by rintro ⟨⟨h1, -⟩, -⟩; exact hsg h1),
            if_neg (by rintro ⟨h1, -⟩; exact h1 (by simp)),
            if_pos (by intro heq; exact hsg heq.symm)]
          rfl
      · exact absurd habs (by simp)
  | cons p ps ih =>
    intro ssegs pattern path i j params fuel hp hs hcp hcs hfuel
    cases fuel with
    | zero => omega
    | succ fl =>
      rcases nextSeg_clean pattern i (p :: ps) hp hcp with ⟨habs, -⟩ |
          ⟨p2, ps2, hpeq, hnsp, hpd1, hpd2⟩
      · simp at habs
      · injection hpeq with hp2 hps2
        subst hp2
        subst hps2
        obtain ⟨hpne, hpns⟩ := hcp p (List.mem_cons_self _ _)
        have hpEnd : ¬(p = [] ∧ pattern.length ≤ (i + 1 + p.length)) := by
          rintro ⟨h1, -⟩
          exact hpne h1
        by_cases hstar : p.headI = '*'
        · -- star segment
          rcases nextSeg_clean path j ssegs hs hcs with ⟨hse, hnss, hsle⟩ |
              ⟨sg, rest, hseq, hnss, hsd1, hsd2⟩
          · subst hse
            simp only [matchLoopF, hnsp, hnss]
            rw [if_neg (by rintro ⟨h1, -⟩; exact hpEnd h1),
              if_neg (by rintro ⟨h1, -⟩; exact hpne h1),
              if_pos ⟨hpEnd, hpne, hstar⟩,
              if_neg (by intro h1; exact h1 rfl)]
            rw [cleanMatch, if_pos ⟨hpne, hstar⟩]
            rfl
          · subst hseq
            obtain ⟨hsgne, -⟩ := hcs sg (List.mem_cons_self _ _)
            simp only [matchLoopF, hnsp, hnss]
            rw [if_neg (by rintro ⟨h1, -⟩; exact hpEnd h1),
              if_neg (by rintro ⟨h1, -⟩; exact hpne h1),
              if_pos ⟨hpEnd, hpne, hstar⟩,
              if_pos hsgne]
            have hjle : j + 1 ≤ path.length := by
              by_contra hge
              push_neg at hge
              have hnil : path.drop (j + 1) = [] :=
                List.drop_eq_nil_iff_le.mpr (by omega)
              rw [hnil] at hsd1
              cases sg with
              | nil => exact absurd rfl hsgne
              | cons a sg2 => simp at hsd1
            have h4 : j + 1 + sg.length - sg.length = j + 1 := by omega
            have hsub : substrAt path sg (j + 1 + sg.length - sg.length) = true := by
              rw [h4, substrAt, hsd1, List.take_left]
              simp
            have hfind := strFind_at path sg (j + 1 + sg.length - sg.length)
              (by omega) hsub
            rw [hfind]
            dsimp only
            rw [h4, hsd1, cleanMatch, if_pos ⟨hpne, hstar⟩]
            rfl
        · -- literal or colon segment
          rcases nextSeg_clean path j ssegs hs hcs with ⟨hse, hnss, hsle⟩ |
              ⟨sg, rest, hseq, hnss, hsd1, hsd2⟩
          · -- path exhausted, pattern not: fail
            subst hse
            simp only [matchLoopF, hnsp, hnss]
            rw [if_neg (by rintro ⟨h1, -⟩; exact hpEnd h1),
              if_neg (by rintro ⟨h1, -⟩; exact hpne h1),
              if_neg (by rintro ⟨-, -, h3⟩; exact hstar h3),
              if_pos ⟨⟨trivial, hsle⟩, hpEnd⟩]
            rw [cleanMatch, if_neg (by rintro ⟨-, h3⟩; exact hstar h3)]
          · subst hseq
            obtain ⟨hsgne, -⟩ := hcs sg (List.mem_cons_self _ _)
            have hsEnd : ¬(sg = [] ∧ path.length ≤ (j + 1 + sg.length)) := by
              rintro ⟨h1, -⟩
              exact hsgne h1
            simp only [matchLoopF, hnsp, hnss]
            rw [if_neg (by rintro ⟨h1, -⟩; exact hpEnd h1),
              if_neg (by rintro ⟨h1, -⟩; exact hpne h1),
              if_neg (by rintro ⟨-, -, h3⟩; exact hstar h3),
              if_neg (by rintro ⟨h1, -⟩; exact hsEnd h1)]
            have hiEnd : pattern.length ≤ i + 1 + p.length ↔ ps = [] := by
              constructor
              · intro hle
                have hnil : pattern.drop (i + 1 + p.length) = [] :=
                  List.drop_eq_nil_iff_le.mpr hle
                rw [hpd2] at hnil
                exact (pathStr_eq_nil ps).mp hnil
              · intro hnil
                rw [hnil, pathStr] at hpd2
                exact List.drop_eq_nil_iff_le.mp hpd2
            have hjEnd : path.length ≤ j + 1 + sg.length ↔ rest = [] := by
              constructor
              · intro hle
                have hnil : path.drop (j + 1 + sg.length) = [] :=
                  List.drop_eq_nil_iff_le.mpr hle
                rw [hsd2] at hnil
                exact (pathStr_eq_nil rest).mp hnil
              · intro hnil
                rw [hnil, pathStr] at hsd2
                exact List.drop_eq_nil_iff_le.mp hsd2
            have hcp2 : CleanSegs ps := fun x hx => hcp x (List.mem_cons_of_mem _ hx)
            have hcs2 : CleanSegs rest := fun x hx => hcs x (List.mem_cons_of_mem _ hx)
            by_cases hcolon : p.headI = ':'
            · rw [if_pos ⟨hpne, hcolon⟩]
              by_cases hend : ps = [] ∧ rest = []
              · rw [if_pos ⟨hiEnd.mpr hend.1, hjEnd.mpr hend.2⟩]
                rw [cleanMatch, if_neg (by rintro ⟨-, h3⟩; exact hstar h3)]
                rw [if_pos ⟨hpne, hcolon⟩, hend.1, hend.2]
                rfl
              · rw [if_neg (by
                  rintro ⟨h1, h2⟩
                  exact hend ⟨hiEnd.mp h1, hjEnd.mp h2⟩)]
                rw [cleanMatch, if_neg (by rintro ⟨-, h3⟩; exact hstar h3)]
                rw [if_pos ⟨hpne, hcolon⟩]
                exact ih rest pattern path _ _ _ fl hpd2 hsd2 hcp2 hcs2 (by
                  simp at hfuel
                  omega)
            · by_cases heq : p = sg
              · rw [if_neg (by rintro ⟨-, h3⟩; exact hcolon h3),
                  if_neg (by intro h1; exact h1 heq)]
                by_cases hend : ps = [] ∧ rest = []
                · rw [if_pos ⟨hiEnd.mpr hend.1, hjEnd.mpr hend.2⟩]
                  rw [cleanMatch, if_neg (by rintro ⟨-, h3⟩; exact hstar h3)]
                  rw [if_neg (by rintro ⟨-, h3⟩; exact hcolon h3), if_pos heq,
                    hend.1, hend.2]
                  rfl
                · rw [if_neg (by
                    rintro ⟨h1, h2⟩
                    exact hend ⟨hiEnd.mp h1, hjEnd.mp h2⟩)]
                  rw [cleanMatch, if_neg (by rintro ⟨-, h3⟩; exact hstar h3)]
                  rw [if_neg (by rintro ⟨-, h3⟩; exact hcolon h3), if_pos heq]
                  exact ih rest pattern path _ _ _ fl hpd2 hsd2 hcp2 hcs2 (by
                    simp at hfuel
                    omega)
              · rw [if_neg (by rintro ⟨-, h3⟩; exact hcolon h3),
                  if_pos heq]
                rw [cleanMatch, if_neg (by rintro ⟨-, h3⟩; exact hstar h3)]
                rw [if_neg (by rintro ⟨-, h3⟩; exact hcolon h3), if_neg heq]
/-- Claim C7: on clean inputs — every `'/'`-separated segment non-empty —
the source's index-walking matcher coincides with the spec's
segment-by-segment description: literals must be equal, `:name` captures
one segment, `*name` captures the whole remainder including intermediate
`'/'` characters, and success requires simultaneous exhaustion or a star;
in particular /static/*path matches /static/css/site.css with
path=css/site.css.  The counterexample shows the equivalence breaks on
paths with empty segments, where `*name` captures "" instead of the
remainder. -/
theorem claim_C7_matching :
    (∀ (psegs ssegs : List (List Char)), CleanSegs psegs → CleanSegs ssegs →
      matchPattern (pathStr psegs) (pathStr ssegs) = cleanMatch psegs ssegs []) ∧
    matchPattern "/static/*path".toList "/static/css/site.css".toList
      = some [("path".toList, "css/site.css".toList)] := by
  constructor
  · intro psegs ssegs hcp hcs
    rw [matchPattern]
    apply matchLoopF_clean psegs ssegs _ _ 0 0 [] _ rfl rfl hcp hcs
    have h1 := pathStr_length_ge psegs
    omega
  · decide

/-- Claim C7 counterexample: against pattern "/a/*x" the paths "/a//b"
and "/a/" both produce the capture x = "", although the first still has
"b" in its remainder — the star does not capture the remainder when it
faces an empty path segment. -/
theorem claim_C7_counterexample :
    matchPattern "/a/*x".toList "/a//b".toList = some [("x".toList, [])] ∧
    matchPattern "/a/*x".toList "/a/".toList = some [("x".toList, [])] ∧
    matchPattern "/a/*x".toList "/a/b".toList = some [("x".toList, "b".toList)] ∧
    ([] : List Char) ≠ "b".toList := by
  refine ⟨by decide, by decide, by decide, by decide⟩

/-- Concrete instance of the C7 equivalence at the spec's own example. -/
theorem claim_C7_matching_witness :
    CleanSegs ["static".toList, "*path".toList] ∧
    CleanSegs ["static".toList, "css".toList, "site.css".toList] ∧
    matchPattern (pathStr ["static".toList, "*path".toList])
        (pathStr ["static".toList, "css".toList, "site.css".toList])
      = cleanMatch ["static".toList, "*path".toList]
          ["static".toList, "css".toList, "site.css".toList] [] :=
  ⟨by decide, by decide, claim_C7_matching.1 _ _ (by decide) (by decide)⟩

/-! ### Claim C6: router dispatch -/

theorem insertSorted_ne_nil (l : List (List Char)) (m : List Char) :
    insertSorted l m ≠ [] := by
  cases l with
  | nil => simp [insertSorted]
  | cons x xs =>
    rw [insertSorted]
    split_ifs <;> simp

theorem foldl_insertSorted_ne_nil (ms : List (List Char))
    (acc : List (List Char)) (h : acc ≠ []) :
    ms.foldl insertSorted acc ≠ [] := by
  induction ms generalizing acc with
  | nil => exact h
  | cons m rest ih =>
    rw [List.foldl_cons]
    exact ih _ (insertSorted_ne_nil _ _)

theorem routeGo_spec (routes : List RouteEntry) (method path : List Char)
    (allowed : List (List Char)) :
    routeGo routes method path allowed =
      match routes.find? (fun r => decide (r.method = method) &&
          (matchPattern r.pattern path).isSome) with
      | some r => RouteResult.handled r.method r.pattern
          ((matchPattern r.pattern path).getD [])
      | none =>
        let ms := (routes.filter
          (fun r => (matchPattern r.pattern path).isSome)).map (fun r => r.method)
        if allowed = [] ∧ ms = [] then RouteResult.notFound
        else RouteResult.methodNotAllowed (ms.foldl insertSorted allowed) := by
  induction routes generalizing allowed with
  | nil =>
    rw [routeGo]
    simp only [List.find?_nil, List.filter_nil, List.map_nil, List.foldl_nil]
    by_cases ha : allowed = []
    · rw [if_neg (by simp [ha]), if_pos ⟨ha, trivial⟩]
    · rw [if_pos ha, if_neg (by simp [ha])]
  | cons r rs ih =>
    rw [routeGo]
    cases hm : matchPattern r.pattern path with
    | none =>
      have hpred : (decide (r.method = method) &&
          (matchPattern r.pattern path).isSome) = false := by
        rw [hm]
        simp
      rw [List.find?_cons_of_neg _ (by rw [hpred]; simp),
        List.filter_cons_of_neg (by rw [hm]; simp)]
      exact ih allowed
    | some params =>
      dsimp only
      by_cases hmm : r.method = method
      · rw [if_pos hmm]
        rw [List.find?_cons_of_pos _ (by rw [hm]; simp [hmm])]
        dsimp only
        rw [hm]
        rfl
      · rw [if_neg hmm]
        rw [List.find?_cons_of_neg _ (by simp [hmm]),
          List.filter_cons_of_pos (by rw [hm]; simp)]
        rw [ih (insertSorted allowed r.method)]
        cases hf : rs.find? (fun x => decide (x.method = method) &&
            (matchPattern x.pattern path).isSome) with
        | some r2 => rfl
        | none =>
          simp only [List.map_cons, List.foldl_cons]
          rw [if_neg (by
            intro hcon
            exact insertSorted_ne_nil allowed r.method hcon.1), if_neg (by simp)]

/-- Claim C6: an empty method token yields 400 Bad Request with no route
consulted, but an unknown non-empty token does not — dispatch proceeds
normally: the first route whose pattern matches and whose method equals
the request's token handles the request; otherwise a 405 carries the
sorted set of methods of the matching routes when non-empty, and a 404
results when no pattern matched. -/
theorem claim_C6_routing :
    (∀ (routes : List RouteEntry) (path : List Char),
      route routes [] path = RouteResult.badRequest) ∧
    (∀ (routes : List RouteEntry) (method path : List Char), method ≠ [] →
      route routes method path =
        match routes.find? (fun r => decide (r.method = method) &&
            (matchPattern r.pattern path).isSome) with
        | some r => RouteResult.handled r.method r.pattern
            ((matchPattern r.pattern path).getD [])
        | none =>
          let ms := (routes.filter
            (fun r => (matchPattern r.pattern path).isSome)).map (fun r => r.method)
          if ms = [] then RouteResult.notFound
          else RouteResult.methodNotAllowed (ms.foldl insertSorted [])) := by
  constructor
  · intro routes path
    rw [route, if_pos rfl]
  · intro routes method path hm
    rw [route, if_neg hm, routeGo_spec]
    cases routes.find? (fun r => decide (r.method = method) &&
        (matchPattern r.pattern path).isSome) with
    | some r => rfl
    | none => simp

/-- Claim C6 counterexample: "FOO" is an unknown, non-empty method token
(`parse_method` maps it to Unknown), yet routing it does not answer 400:
on a matching path it answers 405 with the Allow set, on a non-matching
path 404. -/
theorem claim_C6_counterexample :
    parseMethod "FOO".toList = HttpMethod.unknown ∧
    "FOO".toList ≠ [] ∧
    route [RouteEntry.mk "GET".toList "/ok".toList] "FOO".toList "/ok".toList
      = RouteResult.methodNotAllowed ["GET".toList] ∧
    route [RouteEntry.mk "GET".toList "/ok".toList] "FOO".toList "/miss".toList
      = RouteResult.notFound := by
  refine ⟨rfl, by decide, by decide, by decide⟩

/-- Concrete instance of the C6 theorem: a known method on a matching
route dispatches to its handler. -/
theorem claim_C6_routing_witness :
    "GET".toList ≠ [] ∧
    route [RouteEntry.mk "GET".toList "/ok".toList] "GET".toList "/ok".toList
      = RouteResult.handled "GET".toList "/ok".toList [] :=
  ⟨by decide,
    (claim_C6_routing.2 [RouteEntry.mk "GET".toList "/ok".toList]
      "GET".toList "/ok".toList (by decide)).trans (by rfl)⟩

/-- Claim C1: the spec-modelled comparison (align scales, then sign, then
magnitude by length, then lexicographically) is computed by compareBD; on
every canonical pair outside CmpExceptional it returns exactly the Ordering
of the represented rational values, so there it is the claimed total order;
on the exceptional pairs — one operand zero, the other strictly between 0
and 1 — the algorithm reports the zero side as the larger, disagreeing with
the numerical order. -/
theorem claim_C1_comparison :
    (∀ a b : BigDec, Canonical a → Canonical b → ¬CmpExceptional a b →
      compareBD a b = (if valQ a < valQ b then Ordering.lt
        else if valQ a = valQ b then Ordering.eq else Ordering.gt)) ∧
    (∀ a b : BigDec, Canonical a → Canonical b → CmpExceptional a b →
      (isZero a = true → compareBD a b = Ordering.gt ∧ valQ a < valQ b) ∧
      (isZero b = true → compareBD a b = Ordering.lt ∧ valQ b < valQ a)) := by
  refine ⟨compareBD_correct, ?_⟩
  intro a b ha hb hexc
  constructor
  · intro hza
    have haz := (canonical_isZero_iff a ha).mp hza
    subst haz
    rcases hexc with ⟨-, hzb, hbn, hlb⟩ | ⟨-, hza2, -, -⟩
    · have hnb : 1 ≤ natOfDigits b.digits := canonical_val_pos b hb hzb
      obtain ⟨hn1, hn2, hs1, hs2, hv1, hv2, hl1, hl2, _, _, _, _⟩ :=
        alignScales_spec zeroBD b
      constructor
      · simp only [compareBD]
        rw [hn1, hn2, hbn, if_neg (by simp [zeroBD]), if_neg (by decide)]
        have hc1 : compareAbs (alignScales zeroBD b).1.digits
            (alignScales zeroBD b).2.digits = 1 := by
          rw [compareAbs, if_pos (by rw [hl1, hl2]; simp [zeroBD]; omega),
            if_neg (by rw [hl1, hl2]; simp [zeroBD]; omega)]
        rw [hc1, if_neg (by norm_num), if_neg (by norm_num)]
      · rw [valQ_zeroBD, valQ_false b hbn]
        positivity
    · exact absurd hza2 (by decide)
  · intro hzb
    have hbz := (canonical_isZero_iff b hb).mp hzb
    subst hbz
    rcases hexc with ⟨-, hzb2, -, -⟩ | ⟨-, hza, han, hla⟩
    · exact absurd hzb2 (by decide)
    · have hna : 1 ≤ natOfDigits a.digits := canonical_val_pos a ha hza
      obtain ⟨hn1, hn2, hs1, hs2, hv1, hv2, hl1, hl2, _, _, _, _⟩ :=
        alignScales_spec a zeroBD
      constructor
      · simp only [compareBD]
        rw [hn1, hn2, han, if_neg (by simp [zeroBD]), if_neg (by simp)]
        have hc1 : compareAbs (alignScales a zeroBD).1.digits
            (alignScales a zeroBD).2.digits = -1 := by
          rw [compareAbs, if_pos (by rw [hl1, hl2]; simp [zeroBD]; omega),
            if_pos (by rw [hl1, hl2]; simp [zeroBD]; omega)]
        rw [hc1, if_pos (by norm_num)]
      · rw [valQ_zeroBD, valQ_false a han]
        positivity

/-- Claim C1 counterexample: BigDecimal("0") compared with
BigDecimal("0.5") by the spec's algorithm yields greater-than, although
0 < 0.5; aligning scales pads the zero to the longer vector [0,0], which
the length rule misjudges. -/
theorem claim_C1_counterexample :
    parseFromString "0".toList = .ok zeroBD ∧
    parseFromString "0.5".toList = .ok ⟨[5], false, 1⟩ ∧
    compareBD zeroBD ⟨[5], false, 1⟩ = Ordering.gt ∧
    valQ zeroBD < valQ ⟨[5], false, 1⟩ := by
  refine ⟨by decide, by decide, by decide, ?_⟩
  rw [valQ_zeroBD, valQ_false _ rfl]
  norm_num [natOfDigits_singleton]

/-- Concrete instance of the C1 theorem: 1.5 against 2 (an ordinary pair,
ordered correctly) and 0 against 0.5 (an exceptional pair, misordered). -/
theorem claim_C1_comparison_witness :
    (Canonical ⟨[1, 5], false, 1⟩ ∧ Canonical ⟨[2], false, 0⟩ ∧
      ¬CmpExceptional ⟨[1, 5], false, 1⟩ ⟨[2], false, 0⟩ ∧
      compareBD ⟨[1, 5], false, 1⟩ ⟨[2], false, 0⟩ =
        (if valQ ⟨[1, 5], false, 1⟩ < valQ ⟨[2], false, 0⟩ then Ordering.lt
         else if valQ ⟨[1, 5], false, 1⟩ = valQ ⟨[2], false, 0⟩ then Ordering.eq
         else Ordering.gt)) ∧
    (Canonical zeroBD ∧ Canonical ⟨[5], false, 1⟩ ∧
      CmpExceptional zeroBD ⟨[5], false, 1⟩ ∧
      compareBD zeroBD ⟨[5], false, 1⟩ = Ordering.gt ∧
      valQ zeroBD < valQ ⟨[5], false, 1⟩) :=
  ⟨⟨by decide, by decide, by decide,
    claim_C1_comparison.1 _ _ (by decide) (by decide) (by decide)⟩,
   ⟨by decide, by decide, by decide,
    (claim_C1_comparison.2 _ _ (by decide) (by decide) (by decide)).1 (by decide)⟩⟩

end WebCpp
